import Mathlib

/-!
# Verification of `startstop`: dependency-ordered Start/Stop

A shallow embedding of `startstop.go`.  Objects of the dependency graph are
identified by natural-number ids; each object carries its capabilities (does
its value implement the `Starter` / `Stopper` interface) and a display string
(the Go `String()` rendering used in logs and errors).  The named-edge map of
an object (`inject.Object.Fields`) is embedded as an ordered association list
of `(field name, target id)` pairs; the order models Go's map iteration order
for that object.
-/

namespace Startstop

/-- The embedded view of one `inject.Object`'s value: whether it implements
`Starter` (`startable`), whether it implements `Stopper` (`stoppable`), and
its display string. -/
structure GObj where
  startable : Bool
  stoppable : Bool
  display : String
deriving DecidableEq, Repr

/-- The embedded object graph: `vals` lists each object's capabilities by id,
`flds` lists each object's named dependency edges by id.  Ids out of range
denote objects with no capabilities and no edges. -/
structure Graph where
  vals : List GObj
  flds : List (List (String × Nat))
deriving DecidableEq, Repr

/-- Number of objects in the graph. -/
def Graph.numNodes (G : Graph) : Nat := G.vals.length

/-- The value-capabilities of object `i` (defaulting for out-of-range ids). -/
def Graph.value (G : Graph) (i : Nat) : GObj := G.vals.getD i ⟨false, false, ""⟩

/-- The `Fields` edge list of object `i`, from `inject.Object.Fields`. -/
def Graph.fields (G : Graph) (i : Nat) : List (String × Nat) := G.flds.getD i []

/-- Well-formedness: every edge target is an in-range object id. -/
def Graph.WF (G : Graph) : Prop :=
  ∀ a : Nat, ∀ fv ∈ G.fields a, fv.2 < G.numNodes

/-- Decidable well-formedness check over the underlying lists. -/
def Graph.WFb (G : Graph) : Bool :=
  G.flds.all (fun l => l.all (fun fv => fv.2 < G.vals.length))

/-- `isEligible` from the source: the object's value implements `Starter`
or `Stopper`. -/
def isEligible (G : Graph) (i : Nat) : Bool :=
  (G.value i).startable || (G.value i).stoppable

/-- One step of a `path`: the Go code records the field name and the object
*containing* the field (`path{{Field: field, Object: from}}`). -/
structure Step where
  fieldName : String
  obj : Nat
deriving DecidableEq, Repr

instance : Inhabited Step := ⟨⟨"", 0⟩⟩

/-- A `path` from the source: a sequence of steps through the graph. -/
abbrev Path := List Step

/-- The loop body of `allPaths` over `from.Fields`: for each `(field, value)`
edge, if `value == to` emit the single-step path, otherwise recurse (through
`ap`, the fuel-smaller `allPaths`) and prepend the step to every returned
path.  The accumulated (paths, seen) pair is threaded exactly like the Go
slice/map. -/
def processFields (ap : Nat → List Nat → List Path × List Nat) (frm tgt : Nat) :
    List (String × Nat) → List Path × List Nat → List Path × List Nat
  | [], acc => acc
  | (f, v) :: rest, acc =>
    if v = tgt then
      processFields ap frm tgt rest (acc.1 ++ [[⟨f, frm⟩]], acc.2)
    else
      let r := ap v acc.2
      processFields ap frm tgt rest (acc.1 ++ r.1.map (fun p => ⟨f, frm⟩ :: p), r.2)

/-- `allPaths` from the source, with a fuel parameter standing in for Go's
unbounded recursion (the fuel used by `levels` is proved sufficient).  The
`seen` map is embedded as a list of marked ids; a node is marked when entered
with `from ≠ to`, and an already-marked node yields no paths. -/
def allPaths (G : Graph) : Nat → Nat → Nat → List Nat → List Path × List Nat
  | 0, _, _, seen => ([], seen)
  | fuel + 1, frm, tgt, seen =>
    if frm ≠ tgt ∧ frm ∈ seen then ([], seen)
    else
      processFields (fun v s => allPaths G fuel v tgt s) frm tgt (G.fields frm)
        ([], if frm ≠ tgt then frm :: seen else seen)

/-- The fuel handed to `allPaths` by `levels`; large enough that it never
runs out on a well-formed graph. -/
def apFuel (G : Graph) : Nat := G.numNodes + 3

/-- The paths discovered by `allPaths(o, o, deps)` for object `o`. -/
def pathsOf (G : Graph) (o : Nat) : List Path := (allPaths G (apFuel G) o o []).1

/-- The `deps` map accumulated by `allPaths(o, o, deps)` for object `o`. -/
def seenOf (G : Graph) (o : Nat) : List Nat := (allPaths G (apFuel G) o o []).2

/-- `startStopDeps` from the source: the number of eligible objects in the
accumulated `deps` map of `o`. -/
def codeCount (G : Graph) (o : Nat) : Nat :=
  ((seenOf G o).filter (fun d => isEligible G d)).length

/-- The per-object cycle check of `levels`: iterate the discovered paths in
order; a length-1 path (direct self-cycle) is fatal, and a path on which more
than one object `isEligible` is fatal.  Returns the first fatal path. -/
def firstFatal (G : Graph) : List Path → Option Path
  | [] => none
  | p :: rest =>
    if p.length = 1 then some p
    else if 1 < p.countP (fun s => isEligible G s.obj) then some p
    else firstFatal G rest

/-- Insert object `o` into the `levelsMap` bucket for key `k`, appending to
the existing bucket if the key is present (Go `append(levelsMap[k], o)`). -/
def insertAppend : List (Nat × List Nat) → Nat → Nat → List (Nat × List Nat)
  | [], k, o => [(k, [o])]
  | (k', l) :: rest, k, o =>
    if k' = k then (k', l ++ [o]) :: rest else (k', l) :: insertAppend rest k o

/-- The main loop of `levels`: for each eligible object in slice order, run
`allPaths`, fail on the first fatal path, otherwise count the eligible
members of the accumulated `deps` map and bucket the object by that count. -/
def buildMap (G : Graph) : List Nat → List (Nat × List Nat) →
    Except Path (List (Nat × List Nat))
  | [], m => .ok m
  | o :: rest, m =>
    if isEligible G o then
      match firstFatal G (pathsOf G o) with
      | some p => .error p
      | none => buildMap G rest (insertAppend m (codeCount G o) o)
    else buildMap G rest m

/-- Insert a key into a descending-sorted list (used to embed Go's
`sort.Sort(sort.Reverse(sort.IntSlice(keys)))`; keys are distinct, so any
correct descending sort produces the same list). -/
def insertDesc (k : Nat) : List Nat → List Nat
  | [] => [k]
  | x :: xs => if x ≤ k then k :: x :: xs else x :: insertDesc k xs

/-- Sort a list of keys into descending order. -/
def sortDesc (l : List Nat) : List Nat := l.foldr insertDesc []

/-- Look up the bucket stored for key `k` in the levels map. -/
def lookupLevel : List (Nat × List Nat) → Nat → List Nat
  | [], _ => []
  | (k', l) :: rest, k => if k' = k then l else lookupLevel rest k

/-- `levels` from the source: build the count-keyed buckets, sort the keys in
descending order, and return the buckets in that key order. -/
def levels (G : Graph) (objects : List Nat) : Except Path (List (List Nat)) :=
  match buildMap G objects [] with
  | .error p => .error p
  | .ok m => .ok ((sortDesc (m.map Prod.fst)).map (lookupLevel m))

/-- The error values Start/Stop can return: a cycle error carrying the
offending path, or an error value returned by some object's own start
behavior. -/
inductive SSError where
  | cycle (p : Path)
  | start (e : String)
deriving DecidableEq, Repr

/-- A log event emitted through the optional `Logger` (Debugf or Errorf,
already formatted). -/
inductive LogEvent where
  | debugEv (s : String)
  | errorEv (s : String)
deriving DecidableEq, Repr

/-- The inner loops of `Start` over the flattened level order: for each
object implementing `Starter`, optionally emit the debug log event, invoke
the start behavior (`startB o = some e` models a failed start returning `e`),
and on failure return immediately.  Produces the returned error (if any), the
list of objects whose start behavior was invoked (in order), and the emitted
log events. -/
def startLoop (G : Graph) (startB : Nat → Option String) (hasLog : Bool) :
    List Nat → Option SSError × List Nat × List LogEvent
  | [] => (none, [], [])
  | o :: rest =>
    if (G.value o).startable then
      let lg := if hasLog then [LogEvent.debugEv ("starting " ++ (G.value o).display)] else []
      match startB o with
      | some e => (some (.start e), [o], lg)
      | none =>
        let r := startLoop G startB hasLog rest
        (r.1, o :: r.2.1, lg ++ r.2.2)
    else startLoop G startB hasLog rest

/-- `Start` from the source: compute `levels`, returning its error if any,
then start each object from the last level to the first. -/
def Start (G : Graph) (objects : List Nat) (startB : Nat → Option String)
    (hasLog : Bool) : Option SSError × List Nat × List LogEvent :=
  match levels G objects with
  | .error p => (some (.cycle p), [], [])
  | .ok ls => startLoop G startB hasLog ls.reverse.flatten

/-- The inner loops of `Stop` over the flattened level order: for each object
implementing `Stopper`, optionally emit the debug log event, invoke the stop
behavior, and on failure optionally emit the error log event and continue.
Produces the list of objects whose stop behavior was invoked and the emitted
log events. -/
def stopLoop (G : Graph) (stopB : Nat → Option String) (hasLog : Bool) :
    List Nat → List Nat × List LogEvent
  | [] => ([], [])
  | o :: rest =>
    if (G.value o).stoppable then
      let lg := if hasLog then [LogEvent.debugEv ("stopping " ++ (G.value o).display)] else []
      let lg2 := match stopB o with
        | some e =>
          if hasLog then
            [LogEvent.errorEv ("error stopping " ++ (G.value o).display ++ ": " ++ e)]
          else []
        | none => []
      let r := stopLoop G stopB hasLog rest
      (o :: r.1, lg ++ lg2 ++ r.2)
    else stopLoop G stopB hasLog rest

/-- `Stop` from the source: compute `levels`, returning its error if any,
then stop each object from the first level to the last, swallowing node-level
stop failures. -/
def Stop (G : Graph) (objects : List Nat) (stopB : Nat → Option String)
    (hasLog : Bool) : Option SSError × List Nat × List LogEvent :=
  match levels G objects with
  | .error p => (some (.cycle p), [], [])
  | .ok ls =>
    let r := stopLoop G stopB hasLog ls.flatten
    (none, r.1, r.2)

/-- `cycleError.Error()` from the source: the textual rendering of a cycle
error for path `c`. -/
def cycleErrorString (G : Graph) (c : Path) : String :=
  let num := c.length
  let body := String.join (c.map (fun s =>
    (if num ≠ 1 then "\n" else " ") ++
      "field " ++ s.fieldName ++ " in " ++ (G.value s.obj).display))
  let tl :=
    if num = 1 then " to itself"
    else "\n" ++ "field " ++ (c.headD default).fieldName ++ " in " ++
      (G.value (c.headD default).obj).display
  "circular reference detected from" ++ body ++ tl

/-! ## Specification-side notions: edges, reachability, cycles -/

/-- The dependency-edge relation of the graph: object `a` has some field
referring to object `b`. -/
def Edge (G : Graph) (a b : Nat) : Prop := ∃ fv ∈ G.fields a, fv.2 = b

instance (G : Graph) (a b : Nat) : Decidable (Edge G a b) :=
  List.decidableBEx _ _

/-- `EdgeChainTo G tgt l` holds when `l` is a nonempty list of objects with an
edge from each element to the next and an edge from the last element to
`tgt`. -/
def EdgeChainTo (G : Graph) (tgt : Nat) : List Nat → Prop
  | [] => False
  | [v] => Edge G v tgt
  | v :: w :: rest => Edge G v w ∧ EdgeChainTo G tgt (w :: rest)

instance instDecEdgeChainTo (G : Graph) (tgt : Nat) :
    (l : List Nat) → Decidable (EdgeChainTo G tgt l)
  | [] => isFalse (fun h => h)
  | [v] => inferInstanceAs (Decidable (Edge G v tgt))
  | v :: w :: rest =>
    letI : Decidable (EdgeChainTo G tgt (w :: rest)) := instDecEdgeChainTo G tgt (w :: rest)
    inferInstanceAs (Decidable (Edge G v w ∧ EdgeChainTo G tgt (w :: rest)))

/-- A cycle in the graph: a nonempty list of objects, each with an edge to the
next, the last with an edge back to the first. -/
def IsCycle (G : Graph) (l : List Nat) : Prop :=
  l ≠ [] ∧ EdgeChainTo G (l.headD 0) l

instance (G : Graph) (l : List Nat) : Decidable (IsCycle G l) :=
  inferInstanceAs (Decidable (_ ∧ _))

/-- The steps of a discovered path really follow graph edges: consecutive
steps are linked through the recorded field of the earlier step's object, and
the last step's recorded field refers to `tgt`. -/
def Follows (G : Graph) (tgt : Nat) : Path → Prop
  | [] => False
  | [s] => (s.fieldName, tgt) ∈ G.fields s.obj
  | s :: s' :: rest => (s.fieldName, s'.obj) ∈ G.fields s.obj ∧ Follows G tgt (s' :: rest)

/-- The count the specification assigns to an eligible node: the number of
eligible objects, other than the node itself, in its reachability set (the
objects reachable from it through at least one edge). -/
noncomputable def specCountEx (G : Graph) (o : Nat) : Nat :=
  Set.ncard {v | Relation.TransGen (Edge G) o v ∧ v ≠ o ∧ isEligible G v}

/-- The count named by the claim text, taken literally: the number of
eligible objects in the node's reachability set (the objects reachable from
it through at least one edge, possibly including itself). -/
noncomputable def specCountLit (G : Graph) (o : Nat) : Nat :=
  Set.ncard {v | Relation.TransGen (Edge G) o v ∧ isEligible G v}

/-! ## Basic invariants of `allPaths` -/

theorem pf_suffix {ap : Nat → List Nat → List Path × List Nat} {frm tgt : Nat}
    (Hap : ∀ v s, s <:+ (ap v s).2) :
    ∀ (flds : List (String × Nat)) (acc : List Path × List Nat),
      acc.2 <:+ (processFields ap frm tgt flds acc).2 := by
  intro flds
  induction flds with
  | nil => intro acc; exact List.suffix_refl _
  | cons fv rest ih =>
    intro acc
    obtain ⟨f, v⟩ := fv
    by_cases h : v = tgt
    · simp only [processFields, if_pos h]
      exact ih (acc.1 ++ [[⟨f, frm⟩]], acc.2)
    · simp only [processFields, if_neg h]
      exact (Hap v acc.2).trans
        (ih (acc.1 ++ (ap v acc.2).1.map (fun p => ⟨f, frm⟩ :: p), (ap v acc.2).2))

theorem ap_suffix (G : Graph) :
    ∀ (fuel frm tgt : Nat) (seen : List Nat),
      seen <:+ (allPaths G fuel frm tgt seen).2 := by
  intro fuel
  induction fuel with
  | zero => intro frm tgt seen; exact List.suffix_refl _
  | succ fuel ih =>
    intro frm tgt seen
    by_cases hc : frm ≠ tgt ∧ frm ∈ seen
    · simp only [allPaths, if_pos hc]
      exact List.suffix_refl _
    · simp only [allPaths, if_neg hc]
      refine List.IsSuffix.trans ?_ (pf_suffix (fun v s => ih v tgt s) _ _)
      by_cases hne : frm ≠ tgt
      · simp only [if_pos hne]
        exact List.suffix_cons _ _
      · simp only [if_neg hne]
        exact List.suffix_refl _

theorem ap_seen_sub (G : Graph) (fuel frm tgt : Nat) (seen : List Nat) :
    seen ⊆ (allPaths G fuel frm tgt seen).2 :=
  (ap_suffix G fuel frm tgt seen).subset

theorem pf_pred {P Q : Nat → Prop} {ap : Nat → List Nat → List Path × List Nat}
    {frm tgt : Nat}
    (Hap : ∀ v s x, Q v → x ∈ (ap v s).2 → x ∈ s ∨ P x) :
    ∀ (flds : List (String × Nat)) (acc : List Path × List Nat) (x : Nat),
      (∀ fv ∈ flds, Q fv.2) →
      x ∈ (processFields ap frm tgt flds acc).2 → x ∈ acc.2 ∨ P x := by
  intro flds
  induction flds with
  | nil => intro acc x _ hx; exact Or.inl hx
  | cons fv rest ih =>
    intro acc x hQ hx
    obtain ⟨f, v⟩ := fv
    by_cases h : v = tgt
    · simp only [processFields, if_pos h] at hx
      exact ih (acc.1 ++ [[⟨f, frm⟩]], acc.2) x
        (fun fv hfv => hQ fv (List.mem_cons_of_mem _ hfv)) hx
    · simp only [processFields, if_neg h] at hx
      rcases ih (acc.1 ++ (ap v acc.2).1.map (fun p => ⟨f, frm⟩ :: p), (ap v acc.2).2) x
          (fun fv hfv => hQ fv (List.mem_cons_of_mem _ hfv)) hx with h2 | h2
      · exact Hap v acc.2 x (hQ (f, v) (List.mem_cons_self _ _)) h2
      · exact Or.inr h2

/-- Every id marked by `allPaths` was either already marked, or is a node
other than the target reachable from `frm` along edges. -/
theorem ap_sound (G : Graph) :
    ∀ (fuel frm tgt : Nat) (seen : List Nat) (x : Nat),
      x ∈ (allPaths G fuel frm tgt seen).2 →
      x ∈ seen ∨ (x ≠ tgt ∧ Relation.ReflTransGen (Edge G) frm x) := by
  intro fuel
  induction fuel with
  | zero => intro frm tgt seen x hx; exact Or.inl hx
  | succ fuel ih =>
    intro frm tgt seen x hx
    by_cases hc : frm ≠ tgt ∧ frm ∈ seen
    · simp only [allPaths, if_pos hc] at hx; exact Or.inl hx
    · simp only [allPaths, if_neg hc] at hx
      have step : ∀ v s (y : Nat), Edge G frm v →
          y ∈ (allPaths G fuel v tgt s).2 →
          y ∈ s ∨ (y ≠ tgt ∧ Relation.ReflTransGen (Edge G) frm y) := by
        intro v s y hE hy
        rcases ih v tgt s y hy with h2 | h2
        · exact Or.inl h2
        · exact Or.inr ⟨h2.1, Relation.ReflTransGen.head hE h2.2⟩
      have hQ : ∀ fv ∈ G.fields frm, Edge G frm fv.2 := by
        intro fv hfv; exact ⟨fv, hfv, rfl⟩
      rcases pf_pred (fun v s y hQv hy => step v s y hQv hy) _ _ x hQ hx with h2 | h2
      · by_cases hne : frm ≠ tgt
        · simp only [if_pos hne] at h2
          rcases List.mem_cons.mp h2 with rfl | h3
          · exact Or.inr ⟨hne, Relation.ReflTransGen.refl⟩
          · exact Or.inl h3
        · simp only [if_neg hne] at h2
          exact Or.inl h2
      · exact Or.inr h2

/-- The target of the traversal is never marked. -/
theorem ap_tgt_not_mem (G : Graph) (fuel frm tgt : Nat) (seen : List Nat)
    (h : tgt ∉ seen) : tgt ∉ (allPaths G fuel frm tgt seen).2 := by
  intro hmem
  rcases ap_sound G fuel frm tgt seen tgt hmem with h2 | h2
  · exact h h2
  · exact h2.1 rfl

/-- `allPaths` preserves distinctness of the marked ids. -/
theorem ap_nodup (G : Graph) :
    ∀ (fuel frm tgt : Nat) (seen : List Nat), seen.Nodup →
      (allPaths G fuel frm tgt seen).2.Nodup := by
  intro fuel
  induction fuel with
  | zero => intro frm tgt seen h; exact h
  | succ fuel ih =>
    intro frm tgt seen h
    by_cases hc : frm ≠ tgt ∧ frm ∈ seen
    · simp only [allPaths, if_pos hc]; exact h
    · simp only [allPaths, if_neg hc]
      have hseen1 : (if frm ≠ tgt then frm :: seen else seen).Nodup := by
        by_cases hne : frm ≠ tgt
        · simp only [if_pos hne]
          refine List.nodup_cons.mpr ⟨?_, h⟩
          intro hmem
          exact hc ⟨hne, hmem⟩
        · simp only [if_neg hne]; exact h
      revert hseen1
      generalize (if frm ≠ tgt then frm :: seen else seen) = s0
      intro hs0
      have : ∀ (flds : List (String × Nat)) (acc : List Path × List Nat),
          acc.2.Nodup → (processFields (fun v s => allPaths G fuel v tgt s)
            frm tgt flds acc).2.Nodup := by
        intro flds
        induction flds with
        | nil => intro acc hacc; exact hacc
        | cons fv rest ihf =>
          intro acc hacc
          obtain ⟨f, v⟩ := fv
          by_cases hv : v = tgt
          · simp only [processFields, if_pos hv]
            exact ihf _ hacc
          · simp only [processFields, if_neg hv]
            exact ihf _ (ih v tgt acc.2 hacc)
      exact this _ _ hs0

/-! ## Completeness of the traversal: every reachable node gets marked -/

/-- All edges out of `v` lead to the traversal target or into `s`. -/
def Closed (G : Graph) (tgt : Nat) (s : List Nat) (v : Nat) : Prop :=
  ∀ c, Edge G v c → c = tgt ∨ c ∈ s

theorem Closed.mono {G : Graph} {tgt : Nat} {s s' : List Nat} {v : Nat}
    (hss : s ⊆ s') (h : Closed G tgt s v) : Closed G tgt s' v :=
  fun c hc => (h c hc).imp id (fun h2 => hss h2)

/-- The number of in-range ids not yet marked; decreases when a fresh
in-range id is marked. -/
def mNot (G : Graph) (seen : List Nat) : Nat :=
  ((Finset.range G.numNodes).filter (fun v => v ∉ seen)).card

theorem mNot_mono {G : Graph} {s s' : List Nat} (h : s ⊆ s') :
    mNot G s' ≤ mNot G s := by
  apply Finset.card_le_card
  intro v hv
  simp only [Finset.mem_filter, Finset.mem_range] at hv ⊢
  exact ⟨hv.1, fun hm => hv.2 (h hm)⟩

theorem mNot_le (G : Graph) (s : List Nat) : mNot G s ≤ G.numNodes := by
  calc mNot G s ≤ (Finset.range G.numNodes).card := Finset.card_filter_le _ _
  _ = G.numNodes := Finset.card_range _

theorem mNot_cons_lt {G : Graph} {seen : List Nat} {frm : Nat}
    (hlt : frm < G.numNodes) (hmem : frm ∉ seen) :
    mNot G (frm :: seen) < mNot G seen := by
  apply Finset.card_lt_card
  rw [Finset.ssubset_iff_of_subset]
  · refine ⟨frm, ?_, ?_⟩
    · simp only [Finset.mem_filter, Finset.mem_range]
      exact ⟨hlt, hmem⟩
    · intro hcon
      rw [Finset.mem_filter] at hcon
      exact hcon.2 (List.mem_cons_self _ _)
  · intro v hv
    simp only [Finset.mem_filter, Finset.mem_range, List.mem_cons] at hv ⊢
    exact ⟨hv.1, fun hm => hv.2 (Or.inr hm)⟩

/-- Main completeness invariant: a call on a fresh non-target node, with
enough fuel, marks that node, and afterwards every marked node not on the
recursion stack (`gray`) has all its edges accounted for. -/
theorem ap_complete_main (G : Graph) (hWF : G.WF) (tgt : Nat) :
    ∀ (fuel frm : Nat) (seen gray : List Nat),
      frm ≠ tgt → frm < G.numNodes → mNot G seen + 2 ≤ fuel →
      (∀ g ∈ gray, g ∈ seen) →
      (∀ v ∈ seen, v ∈ gray ∨ Closed G tgt seen v) →
      frm ∈ (allPaths G fuel frm tgt seen).2 ∧
      (∀ v ∈ (allPaths G fuel frm tgt seen).2,
        v ∈ gray ∨ Closed G tgt (allPaths G fuel frm tgt seen).2 v) := by
  intro fuel
  induction fuel with
  | zero => intro frm seen gray _ _ hfuel _ _; omega
  | succ fuel ih =>
    intro frm seen gray hne hltn hfuel hg hinv
    by_cases hc : frm ≠ tgt ∧ frm ∈ seen
    · simp only [allPaths, if_pos hc]
      exact ⟨hc.2, hinv⟩
    · have hfm : frm ∉ seen := fun hm => hc ⟨hne, hm⟩
      simp only [allPaths, if_neg hc, if_pos hne]
      have hdec : mNot G (frm :: seen) < mNot G seen := mNot_cons_lt hltn hfm
      have hfold : ∀ (flds : List (String × Nat)) (acc : List Path × List Nat),
          (∀ fv ∈ flds, fv.2 < G.numNodes) →
          (frm :: seen) ⊆ acc.2 →
          (∀ v ∈ acc.2, v ∈ (frm :: gray) ∨ Closed G tgt acc.2 v) →
          acc.2 ⊆ (processFields (fun v s => allPaths G fuel v tgt s) frm tgt flds acc).2 ∧
          (∀ v ∈ (processFields (fun v s => allPaths G fuel v tgt s) frm tgt flds acc).2,
            v ∈ (frm :: gray) ∨
              Closed G tgt
                (processFields (fun v s => allPaths G fuel v tgt s) frm tgt flds acc).2 v) ∧
          (∀ fv ∈ flds, fv.2 = tgt ∨
            fv.2 ∈ (processFields (fun v s => allPaths G fuel v tgt s) frm tgt flds acc).2) := by
        intro flds
        induction flds with
        | nil =>
          intro acc _ _ hinv2
          refine ⟨fun x hx => hx, hinv2, ?_⟩
          intro fv hfv
          exact absurd hfv (List.not_mem_nil _)
        | cons fv0 rest ihf =>
          intro acc hflds hsub hinv2
          obtain ⟨f, v⟩ := fv0
          by_cases hv : v = tgt
          · simp only [processFields, if_pos hv]
            obtain ⟨o1, o2, o3⟩ := ihf (acc.1 ++ [[⟨f, frm⟩]], acc.2)
              (fun fv hfv => hflds fv (List.mem_cons_of_mem _ hfv)) hsub hinv2
            refine ⟨o1, o2, ?_⟩
            intro fv hfv
            rcases List.mem_cons.mp hfv with rfl | hfv2
            · exact Or.inl hv
            · exact o3 fv hfv2
          · simp only [processFields, if_neg hv]
            have hvlt : v < G.numNodes := hflds (f, v) (List.mem_cons_self _ _)
            have hvfuel : mNot G acc.2 + 2 ≤ fuel := by
              have h1 : mNot G acc.2 ≤ mNot G (frm :: seen) := mNot_mono hsub
              omega
            have hgsub : ∀ g ∈ (frm :: gray), g ∈ acc.2 := by
              intro g hgm
              rcases List.mem_cons.mp hgm with rfl | hgm2
              · exact hsub (List.mem_cons_self _ _)
              · exact hsub (List.mem_cons_of_mem _ (hg g hgm2))
            obtain ⟨hv_in, hinv3⟩ := ih v acc.2 (frm :: gray) hv hvlt hvfuel hgsub hinv2
            have hsfx : acc.2 ⊆ (allPaths G fuel v tgt acc.2).2 :=
              ap_seen_sub G fuel v tgt acc.2
            obtain ⟨o1, o2, o3⟩ := ihf
              (acc.1 ++ (allPaths G fuel v tgt acc.2).1.map (fun p => ⟨f, frm⟩ :: p),
                (allPaths G fuel v tgt acc.2).2)
              (fun fv hfv => hflds fv (List.mem_cons_of_mem _ hfv))
              (fun x hx => hsfx (hsub hx)) hinv3
            refine ⟨fun x hx => o1 (hsfx hx), o2, ?_⟩
            intro fv hfv
            rcases List.mem_cons.mp hfv with rfl | hfv2
            · exact Or.inr (o1 hv_in)
            · exact o3 fv hfv2
      obtain ⟨o1, o2, o3⟩ := hfold (G.fields frm) ([], frm :: seen)
        (fun fv hfv => hWF frm fv hfv) (fun x hx => hx)
        (by
          intro x hx
          rcases List.mem_cons.mp hx with rfl | hx2
          · exact Or.inl (List.mem_cons_self _ _)
          · rcases hinv x hx2 with h2 | h2
            · exact Or.inl (List.mem_cons_of_mem _ h2)
            · exact Or.inr (h2.mono (List.subset_cons_of_subset _ (fun y hy => hy))))
      refine ⟨o1 (List.mem_cons_self _ _), ?_⟩
      intro x hx
      rcases o2 x hx with h2 | h2
      · rcases List.mem_cons.mp h2 with rfl | h3
        · refine Or.inr ?_
          intro c hEc
          obtain ⟨fv, hfv, rfl⟩ := hEc
          exact o3 fv hfv
        · exact Or.inl h3
      · exact Or.inr h2

/-- Top-level completeness: after `allPaths(o, o, ∅)` with the fuel used by
`levels`, the marked set is closed under edges (up to the target), and every
direct successor of the target is the target or marked. -/
theorem ap_complete_top (G : Graph) (hWF : G.WF) (tgt : Nat) :
    (∀ v ∈ (allPaths G (apFuel G) tgt tgt []).2,
        Closed G tgt (allPaths G (apFuel G) tgt tgt []).2 v) ∧
    (∀ fv ∈ G.fields tgt, fv.2 = tgt ∨ fv.2 ∈ (allPaths G (apFuel G) tgt tgt []).2) := by
  have hguard : ¬(tgt ≠ tgt ∧ tgt ∈ ([] : List Nat)) := by simp
  have hne' : ¬(tgt ≠ tgt) := by simp
  show _ ∧ _
  rw [show apFuel G = (G.numNodes + 2) + 1 from rfl]
  simp only [allPaths, if_neg hguard, if_neg hne']
  have hfold : ∀ (flds : List (String × Nat)) (acc : List Path × List Nat),
      (∀ fv ∈ flds, fv.2 < G.numNodes) →
      (∀ v ∈ acc.2, Closed G tgt acc.2 v) →
      acc.2 ⊆ (processFields (fun v s => allPaths G (G.numNodes + 2) v tgt s)
        tgt tgt flds acc).2 ∧
      (∀ v ∈ (processFields (fun v s => allPaths G (G.numNodes + 2) v tgt s)
          tgt tgt flds acc).2,
        Closed G tgt (processFields (fun v s => allPaths G (G.numNodes + 2) v tgt s)
          tgt tgt flds acc).2 v) ∧
      (∀ fv ∈ flds, fv.2 = tgt ∨
        fv.2 ∈ (processFields (fun v s => allPaths G (G.numNodes + 2) v tgt s)
          tgt tgt flds acc).2) := by
    intro flds
    induction flds with
    | nil =>
      intro acc _ hinv2
      exact ⟨fun x hx => hx, hinv2, fun fv hfv => absurd hfv (List.not_mem_nil _)⟩
    | cons fv0 rest ihf =>
      intro acc hflds hinv2
      obtain ⟨f, v⟩ := fv0
      by_cases hv : v = tgt
      · simp only [processFields, if_pos hv]
        obtain ⟨o1, o2, o3⟩ := ihf (acc.1 ++ [[⟨f, tgt⟩]], acc.2)
          (fun fv hfv => hflds fv (List.mem_cons_of_mem _ hfv)) hinv2
        refine ⟨o1, o2, ?_⟩
        intro fv hfv
        rcases List.mem_cons.mp hfv with rfl | hfv2
        · exact Or.inl hv
        · exact o3 fv hfv2
      · simp only [processFields, if_neg hv]
        have hvlt : v < G.numNodes := hflds (f, v) (List.mem_cons_self _ _)
        have hvfuel : mNot G acc.2 + 2 ≤ G.numNodes + 2 := by
          have := mNot_le G acc.2
          omega
        obtain ⟨hv_in, hinv3⟩ := ap_complete_main G hWF tgt (G.numNodes + 2) v acc.2 []
          hv hvlt hvfuel (fun g hgm => absurd hgm (List.not_mem_nil _))
          (fun u hu => Or.inr (hinv2 u hu))
        have hsfx : acc.2 ⊆ (allPaths G (G.numNodes + 2) v tgt acc.2).2 :=
          ap_seen_sub G (G.numNodes + 2) v tgt acc.2
        obtain ⟨o1, o2, o3⟩ := ihf
          (acc.1 ++ (allPaths G (G.numNodes + 2) v tgt acc.2).1.map (fun p => ⟨f, tgt⟩ :: p),
            (allPaths G (G.numNodes + 2) v tgt acc.2).2)
          (fun fv hfv => hflds fv (List.mem_cons_of_mem _ hfv))
          (fun u hu => ((hinv3 u hu).resolve_left (List.not_mem_nil _)))
        refine ⟨fun x hx => o1 (hsfx hx), o2, ?_⟩
        intro fv hfv
        rcases List.mem_cons.mp hfv with rfl | hfv2
        · exact Or.inr (o1 hv_in)
        · exact o3 fv hfv2
  obtain ⟨o1, o2, o3⟩ := hfold (G.fields tgt) ([], [])
    (fun fv hfv => hWF tgt fv hfv)
    (fun u hu => absurd hu (List.not_mem_nil _))
  exact ⟨o2, o3⟩

/-- Every node reachable from `o` through at least one edge is `o` itself or
ends up in the accumulated `deps` map of `o`. -/
theorem seenOf_complete (G : Graph) (hWF : G.WF) (o v : Nat)
    (h : Relation.TransGen (Edge G) o v) : v = o ∨ v ∈ seenOf G o := by
  obtain ⟨htop1, htop2⟩ := ap_complete_top G hWF o
  induction h with
  | single hov =>
    obtain ⟨fv, hfv, rfl⟩ := hov
    exact (htop2 fv hfv).imp id id
  | tail _ hedge ihv =>
    rcases ihv with rfl | hbm
    · obtain ⟨fv, hfv, rfl⟩ := hedge
      exact (htop2 fv hfv).imp id id
    · obtain ⟨fv, hfv, rfl⟩ := hedge
      rcases htop1 _ hbm fv.2 ⟨fv, hfv, rfl⟩ with h2 | h2
      · exact Or.inl h2
      · exact Or.inr h2

/-- The accumulated `deps` map of `o` is exactly the set of nodes other than
`o` reachable from `o` through at least one edge. -/
theorem seenOf_iff (G : Graph) (hWF : G.WF) (o v : Nat) :
    v ∈ seenOf G o ↔ Relation.TransGen (Edge G) o v ∧ v ≠ o := by
  constructor
  · intro hv
    rcases ap_sound G (apFuel G) o o [] v hv with h2 | h2
    · exact absurd h2 (List.not_mem_nil _)
    · refine ⟨?_, h2.1⟩
      rcases h2.2.cases_head with rfl | ⟨b, hb, hbv⟩
      · exact absurd rfl h2.1
      · exact Relation.TransGen.head' hb hbv
  · intro ⟨ht, hne⟩
    rcases seenOf_complete G hWF o v ht with rfl | h2
    · exact absurd rfl hne
    · exact h2

theorem seenOf_nodup (G : Graph) (o : Nat) : (seenOf G o).Nodup :=
  ap_nodup G (apFuel G) o o [] List.nodup_nil

/-- In an acyclic graph, a node reachable from `A` has a strictly smaller
`startStopDeps` count than `A` itself, provided both are eligible. -/
theorem codeCount_lt_of_reach (G : Graph) (hWF : G.WF)
    (hacyc : ∀ v, ¬ Relation.TransGen (Edge G) v v) {A B : Nat}
    (hAB : Relation.TransGen (Edge G) A B) (hBel : isEligible G B = true) :
    codeCount G B < codeCount G A := by
  have hBA : B ∈ seenOf G A := by
    rcases seenOf_complete G hWF A B hAB with rfl | h2
    · exact absurd hAB (hacyc B)
    · exact h2
  have hBB : B ∉ seenOf G B := by
    intro hmem
    exact hacyc B ((seenOf_iff G hWF B B).mp hmem).1
  have hsub : ∀ x ∈ seenOf G B, x ∈ seenOf G A := by
    intro x hx
    obtain ⟨hBx, hxB⟩ := (seenOf_iff G hWF B x).mp hx
    have hAx : Relation.TransGen (Edge G) A x := hAB.trans hBx
    rcases seenOf_complete G hWF A x hAx with rfl | h2
    · exact absurd (hBx.trans hAB) (hacyc B)
    · exact h2
  -- compare the filtered lists through their finsets
  have hndB : ((seenOf G B).filter (fun d => isEligible G d)).Nodup :=
    (seenOf_nodup G B).filter _
  have hndA : ((seenOf G A).filter (fun d => isEligible G d)).Nodup :=
    (seenOf_nodup G A).filter _
  have hBnotF : B ∉ ((seenOf G B).filter (fun d => isEligible G d)).toFinset := by
    intro hmem
    exact hBB (List.mem_filter.mp (List.mem_toFinset.mp hmem)).1
  have hstep : (insert B ((seenOf G B).filter (fun d => isEligible G d)).toFinset).card ≤
      ((seenOf G A).filter (fun d => isEligible G d)).toFinset.card := by
    apply Finset.card_le_card
    intro x hx
    rcases Finset.mem_insert.mp hx with rfl | hx2
    · exact List.mem_toFinset.mpr (List.mem_filter.mpr ⟨hBA, hBel⟩)
    · obtain ⟨hm, he⟩ := List.mem_filter.mp (List.mem_toFinset.mp hx2)
      exact List.mem_toFinset.mpr (List.mem_filter.mpr ⟨hsub x hm, he⟩)
  rw [Finset.card_insert_of_not_mem hBnotF, List.toFinset_card_of_nodup hndB,
    List.toFinset_card_of_nodup hndA] at hstep
  unfold codeCount
  omega

/-! ## Soundness of the discovered paths -/

theorem ap_paths_empty (G : Graph) (fuel v tgt : Nat) (s : List Nat)
    (hne : v ≠ tgt) (hmem : v ∈ s) : (allPaths G fuel v tgt s).1 = [] := by
  cases fuel with
  | zero => rfl
  | succ fuel => simp only [allPaths, if_pos (And.intro hne hmem)]

theorem Follows.cons {G : Graph} {tgt : Nat} {p : Path} {f : String} {frm : Nat}
    (hne : p ≠ []) (hhd : ∀ h : p ≠ [], (f, (p.head h).obj) ∈ G.fields frm)
    (hf : Follows G tgt p) : Follows G tgt (⟨f, frm⟩ :: p) := by
  cases p with
  | nil => exact absurd rfl hne
  | cons s rest => exact ⟨hhd (by simp), hf⟩

/-- Every discovered path follows real edges back to the target, starts at
`frm`, and visits distinct objects that were unmarked at call entry. -/
theorem ap_paths (G : Graph) :
    ∀ (fuel frm tgt : Nat) (seen : List Nat) (p : Path),
      p ∈ (allPaths G fuel frm tgt seen).1 →
      Follows G tgt p ∧ ∃ t, p.map Step.obj = frm :: t ∧ t.Nodup ∧
        ∀ x ∈ t, x ∉ seen ∧ x ≠ frm ∧ x ≠ tgt := by
  intro fuel
  induction fuel with
  | zero => intro frm tgt seen p hp; exact absurd hp (List.not_mem_nil _)
  | succ fuel ih =>
    intro frm tgt seen p hp
    by_cases hc : frm ≠ tgt ∧ frm ∈ seen
    · rw [show allPaths G (fuel + 1) frm tgt seen = ([], seen) by
        simp only [allPaths, if_pos hc]] at hp
      exact absurd hp (List.not_mem_nil _)
    · simp only [allPaths, if_neg hc] at hp
      have hS1 : seen ⊆ (if frm ≠ tgt then frm :: seen else seen) := by
        by_cases hne : frm ≠ tgt
        · simp only [if_pos hne]
          exact List.subset_cons_of_subset _ (fun y hy => hy)
        · simp only [if_neg hne]
          exact fun y hy => hy
      have hS2 : frm ∈ (if frm ≠ tgt then frm :: seen else seen) ∨ frm = tgt := by
        by_cases hne : frm ≠ tgt
        · simp only [if_pos hne]
          exact Or.inl (List.mem_cons_self _ _)
        · exact Or.inr (not_ne_iff.mp hne)
      revert hp
      have hfold : ∀ (flds : List (String × Nat)) (acc : List Path × List Nat),
          (∀ fv ∈ flds, fv ∈ G.fields frm) →
          seen ⊆ acc.2 → (frm ∈ acc.2 ∨ frm = tgt) →
          (∀ q ∈ acc.1, Follows G tgt q ∧ ∃ t, q.map Step.obj = frm :: t ∧ t.Nodup ∧
            ∀ x ∈ t, x ∉ seen ∧ x ≠ frm ∧ x ≠ tgt) →
          ∀ q ∈ (processFields (fun v s => allPaths G fuel v tgt s) frm tgt flds acc).1,
            Follows G tgt q ∧ ∃ t, q.map Step.obj = frm :: t ∧ t.Nodup ∧
              ∀ x ∈ t, x ∉ seen ∧ x ≠ frm ∧ x ≠ tgt := by
        intro flds
        induction flds with
        | nil => intro acc _ _ _ hgood q hq; exact hgood q hq
        | cons fv0 rest ihf =>
          intro acc hflds hsub hfrm hgood
          obtain ⟨f, v⟩ := fv0
          by_cases hv : v = tgt
          · simp only [processFields, if_pos hv]
            refine ihf (acc.1 ++ [[⟨f, frm⟩]], acc.2)
              (fun fv hfv => hflds fv (List.mem_cons_of_mem _ hfv)) hsub hfrm ?_
            intro q hq
            rcases List.mem_append.mp hq with hq2 | hq2
            · exact hgood q hq2
            · rw [List.mem_singleton.mp hq2]
              refine ⟨?_, [], by simp, List.nodup_nil, ?_⟩
              · show (f, tgt) ∈ G.fields frm
                rw [← hv]
                exact hflds (f, v) (List.mem_cons_self _ _)
              · intro x hx; exact absurd hx (List.not_mem_nil _)
          · simp only [processFields, if_neg hv]
            have hvnot : ∀ q ∈ (allPaths G fuel v tgt acc.2).1, v ∉ acc.2 := by
              intro q hq hvin
              rw [ap_paths_empty G fuel v tgt acc.2 hv hvin] at hq
              exact absurd hq (List.not_mem_nil _)
            refine ihf
              (acc.1 ++ (allPaths G fuel v tgt acc.2).1.map (fun q => ⟨f, frm⟩ :: q),
                (allPaths G fuel v tgt acc.2).2)
              (fun fv hfv => hflds fv (List.mem_cons_of_mem _ hfv))
              (fun y hy => ap_seen_sub G fuel v tgt acc.2 (hsub hy))
              (hfrm.imp (fun h2 => ap_seen_sub G fuel v tgt acc.2 h2) id) ?_
            intro q hq
            rcases List.mem_append.mp hq with hq2 | hq2
            · exact hgood q hq2
            · obtain ⟨q', hq', rfl⟩ := List.mem_map.mp hq2
              have hvna : v ∉ acc.2 := hvnot q' hq'
              obtain ⟨hfol, t', hmap, hnd', hfresh'⟩ := ih v tgt acc.2 q' hq'
              have hq'ne : q' ≠ [] := by
                intro h0
                rw [h0] at hmap
                exact absurd hmap.symm (List.cons_ne_nil _ _)
              have hhead : ∀ h : q' ≠ [], (q'.head h).obj = v := by
                intro h
                cases q' with
                | nil => exact absurd rfl h
                | cons s0 rest0 =>
                  simp only [List.map_cons] at hmap
                  simp only [List.head_cons]
                  exact (List.cons_eq_cons.mp hmap).1
              refine ⟨Follows.cons hq'ne (fun h => by
                  rw [hhead h]
                  exact hflds (f, v) (List.mem_cons_self _ _)) hfol,
                v :: t', by simp [hmap], ?_, ?_⟩
              · refine List.nodup_cons.mpr ⟨?_, hnd'⟩
                intro hvt
                exact (hfresh' v hvt).2.1 rfl
              · intro x hx
                have hfrm2 : x ∉ acc.2 → x ≠ frm := by
                  intro hxna
                  rcases hfrm with h2 | h2
                  · intro hxe; rw [hxe] at hxna; exact hxna h2
                  · intro hxe
                    rcases List.mem_cons.mp hx with rfl | hx2
                    · exact hv (hxe.symm ▸ h2)
                    · exact (hfresh' x hx2).2.2 (hxe.trans h2)
                rcases List.mem_cons.mp hx with rfl | hx2
                · exact ⟨fun hm => hvna (hsub hm), hfrm2 hvna, hv⟩
                · obtain ⟨hna, hnv, hnt⟩ := hfresh' x hx2
                  exact ⟨fun hm => hna (hsub hm), hfrm2 hna, hnt⟩
      intro hp
      exact hfold (G.fields frm) ([], if frm ≠ tgt then frm :: seen else seen)
        (fun fv hfv => hfv) hS1 hS2 (fun q hq => absurd hq (List.not_mem_nil _)) p hp

/-- A path that follows edges to `tgt` yields an edge chain over its
objects. -/
theorem follows_edgeChain (G : Graph) (tgt : Nat) :
    ∀ p : Path, Follows G tgt p → EdgeChainTo G tgt (p.map Step.obj)
  | [] => fun h => absurd h (fun h2 => h2)
  | [s] => fun h => ⟨(s.fieldName, tgt), h, rfl⟩
  | s :: s' :: rest => fun h =>
      ⟨⟨(s.fieldName, s'.obj), h.1, rfl⟩, follows_edgeChain G tgt (s' :: rest) h.2⟩

/-- Every path discovered for object `o` is a genuine cycle through `o`,
with distinct objects, starting at `o`. -/
theorem pathsOf_cycle (G : Graph) (o : Nat) (p : Path) (hp : p ∈ pathsOf G o) :
    IsCycle G (p.map Step.obj) ∧ (∃ t, p.map Step.obj = o :: t) ∧
      (p.map Step.obj).Nodup := by
  obtain ⟨hfol, t, hmap, hnd, hfresh⟩ := ap_paths G (apFuel G) o o [] p hp
  have hchain : EdgeChainTo G o (p.map Step.obj) := follows_edgeChain G o p hfol
  refine ⟨⟨?_, ?_⟩, ⟨t, hmap⟩, ?_⟩
  · rw [hmap]; exact List.cons_ne_nil _ _
  · rw [hmap] at hchain ⊢
    simpa using hchain
  · rw [hmap]
    refine List.nodup_cons.mpr ⟨?_, hnd⟩
    intro hmem
    exact (hfresh o hmem).2.1 rfl

/-- `firstFatal` returns nothing exactly when no discovered path is a direct
self-cycle or touches more than one eligible object. -/
theorem firstFatal_eq_none_iff (G : Graph) (ps : List Path) :
    firstFatal G ps = none ↔
      ∀ p ∈ ps, p.length ≠ 1 ∧ p.countP (fun s => isEligible G s.obj) ≤ 1 := by
  induction ps with
  | nil => simp [firstFatal]
  | cons p rest ih =>
    by_cases h1 : p.length = 1
    · simp only [firstFatal, if_pos h1]
      constructor
      · intro h; exact absurd h (by simp)
      · intro h
        exact absurd h1 (h p (List.mem_cons_self _ _)).1
    · by_cases h2 : 1 < p.countP (fun s => isEligible G s.obj)
      · simp only [firstFatal, if_neg h1, if_pos h2]
        constructor
        · intro h; exact absurd h (by simp)
        · intro h
          exact absurd h2 (by
            have := (h p (List.mem_cons_self _ _)).2
            omega)
      · simp only [firstFatal, if_neg h1, if_neg h2]
        rw [ih]
        constructor
        · intro h q hq
          rcases List.mem_cons.mp hq with rfl | hq2
          · exact ⟨h1, by omega⟩
          · exact h q hq2
        · intro h q hq
          exact h q (List.mem_cons_of_mem _ hq)

/-! ## Emission of direct self-cycle paths -/

theorem pf_acc1_sub (ap : Nat → List Nat → List Path × List Nat) (frm tgt : Nat) :
    ∀ (flds : List (String × Nat)) (acc : List Path × List Nat),
      acc.1 ⊆ (processFields ap frm tgt flds acc).1 := by
  intro flds
  induction flds with
  | nil => intro acc; exact fun q hq => hq
  | cons fv0 rest ih =>
    intro acc
    obtain ⟨f, v⟩ := fv0
    by_cases hv : v = tgt
    · simp only [processFields, if_pos hv]
      intro q hq
      exact ih (acc.1 ++ [[⟨f, frm⟩]], acc.2) (List.mem_append_left _ hq)
    · simp only [processFields, if_neg hv]
      intro q hq
      exact ih _ (List.mem_append_left _ hq)

theorem pf_emit (ap : Nat → List Nat → List Path × List Nat) (frm tgt : Nat) :
    ∀ (flds : List (String × Nat)) (acc : List Path × List Nat) (f : String),
      (f, tgt) ∈ flds → [⟨f, frm⟩] ∈ (processFields ap frm tgt flds acc).1 := by
  intro flds
  induction flds with
  | nil => intro acc f h; exact absurd h (List.not_mem_nil _)
  | cons fv0 rest ih =>
    intro acc f h
    obtain ⟨f0, v0⟩ := fv0
    rcases List.mem_cons.mp h with heq | h2
    · have hf : f0 = f := (Prod.mk.injEq _ _ _ _ |>.mp heq.symm).1
      have hv : v0 = tgt := (Prod.mk.injEq _ _ _ _ |>.mp heq.symm).2
      simp only [processFields, if_pos hv]
      refine pf_acc1_sub ap frm tgt rest _ ?_
      rw [hf]
      exact List.mem_append_right _ (List.mem_singleton.mpr rfl)
    · by_cases hv : v0 = tgt
      · simp only [processFields, if_pos hv]
        exact ih _ f h2
      · simp only [processFields, if_neg hv]
        exact ih _ f h2

/-- A direct self-edge on `o` always shows up as a length-1 discovered
path. -/
theorem selfLoop_path_mem (G : Graph) (o : Nat) (f : String)
    (h : (f, o) ∈ G.fields o) : [(⟨f, o⟩ : Step)] ∈ pathsOf G o := by
  have hguard : ¬(o ≠ o ∧ o ∈ ([] : List Nat)) := by simp
  unfold pathsOf
  rw [show apFuel G = (G.numNodes + 2) + 1 from rfl]
  simp only [allPaths, if_neg hguard]
  exact pf_emit _ o o (G.fields o) _ f h

/-! ## Propagation through `buildMap` and `levels` -/

theorem buildMap_error_of_fatal (G : Graph) :
    ∀ (objs : List Nat) (m : List (Nat × List Nat)) (o : Nat),
      o ∈ objs → isEligible G o = true → firstFatal G (pathsOf G o) ≠ none →
      ∃ p, buildMap G objs m = .error p := by
  intro objs
  induction objs with
  | nil => intro m o h; exact absurd h (List.not_mem_nil _)
  | cons o' rest ih =>
    intro m o hmem hel hfat
    by_cases hel' : isEligible G o' = true
    · cases hff : firstFatal G (pathsOf G o') with
      | some p =>
        refine ⟨p, ?_⟩
        simp only [buildMap, if_pos hel', hff]
      | none =>
        rcases List.mem_cons.mp hmem with rfl | hmem2
        · exact absurd hff hfat
        · obtain ⟨p, hp⟩ := ih (insertAppend m (codeCount G o') o') o hmem2 hel hfat
          refine ⟨p, ?_⟩
          simp only [buildMap, if_pos hel', hff]
          exact hp
    · rcases List.mem_cons.mp hmem with rfl | hmem2
      · exact absurd hel hel'
      · obtain ⟨p, hp⟩ := ih m o hmem2 hel hfat
        refine ⟨p, ?_⟩
        simp only [buildMap, if_neg hel']
        exact hp

theorem levels_error_of_fatal (G : Graph) (objs : List Nat) (o : Nat)
    (hmem : o ∈ objs) (hel : isEligible G o = true)
    (hfat : firstFatal G (pathsOf G o) ≠ none) :
    ∃ p, levels G objs = .error p := by
  obtain ⟨p, hp⟩ := buildMap_error_of_fatal G objs [] o hmem hel hfat
  exact ⟨p, by simp only [levels, hp]⟩

theorem buildMap_ok_fatal_none (G : Graph) :
    ∀ (objs : List Nat) (m m' : List (Nat × List Nat)),
      buildMap G objs m = .ok m' →
      ∀ o ∈ objs, isEligible G o = true → firstFatal G (pathsOf G o) = none := by
  intro objs
  induction objs with
  | nil => intro m m' _ o h; exact absurd h (List.not_mem_nil _)
  | cons o' rest ih =>
    intro m m' hok o hmem hel
    by_cases hel' : isEligible G o' = true
    · cases hff : firstFatal G (pathsOf G o') with
      | some p =>
        rw [show buildMap G (o' :: rest) m = .error p by
          simp only [buildMap, if_pos hel', hff]] at hok
        exact absurd hok (by simp)
      | none =>
        rcases List.mem_cons.mp hmem with rfl | hmem2
        · exact hff
        · refine ih (insertAppend m (codeCount G o') o') m' ?_ o hmem2 hel
          rw [show buildMap G (o' :: rest) m =
            buildMap G rest (insertAppend m (codeCount G o') o') by
              simp only [buildMap, if_pos hel', hff]] at hok
          exact hok
    · rcases List.mem_cons.mp hmem with rfl | hmem2
      · exact absurd hel hel'
      · refine ih m m' ?_ o hmem2 hel
        rw [show buildMap G (o' :: rest) m = buildMap G rest m by
          simp only [buildMap, if_neg hel']] at hok
        exact hok

theorem buildMap_ok_of_no_fatal (G : Graph) :
    ∀ (objs : List Nat) (m : List (Nat × List Nat)),
      (∀ o ∈ objs, isEligible G o = true → firstFatal G (pathsOf G o) = none) →
      ∃ m', buildMap G objs m = .ok m' := by
  intro objs
  induction objs with
  | nil => intro m _; exact ⟨m, rfl⟩
  | cons o' rest ih =>
    intro m h
    by_cases hel' : isEligible G o' = true
    · have hff : firstFatal G (pathsOf G o') = none :=
        h o' (List.mem_cons_self _ _) hel'
      obtain ⟨m', hm'⟩ := ih (insertAppend m (codeCount G o') o')
        (fun o ho he => h o (List.mem_cons_of_mem _ ho) he)
      refine ⟨m', ?_⟩
      simp only [buildMap, if_pos hel', hff]
      exact hm'
    · obtain ⟨m', hm'⟩ := ih m (fun o ho he => h o (List.mem_cons_of_mem _ ho) he)
      refine ⟨m', ?_⟩
      simp only [buildMap, if_neg hel']
      exact hm'

/-! ## Structure of the levels map -/

/-- Membership test for the bucket keyed `k`: eligible with `deps` count
`k`. -/
def bucketPred (G : Graph) (k : Nat) (o : Nat) : Bool :=
  isEligible G o && (codeCount G o == k)

/-- Invariant tying the levels map to the prefix of objects already
processed: keys are distinct, each bucket holds exactly the processed
eligible objects with that count (in processing order), and every processed
eligible object has its count among the keys. -/
def MapInv (G : Graph) (processed : List Nat) (m : List (Nat × List Nat)) : Prop :=
  (m.map Prod.fst).Nodup ∧
  (∀ k, lookupLevel m k = processed.filter (bucketPred G k)) ∧
  (∀ o ∈ processed, isEligible G o = true → codeCount G o ∈ m.map Prod.fst)

theorem lookupLevel_insertAppend_self :
    ∀ (m : List (Nat × List Nat)) (k o : Nat),
      lookupLevel (insertAppend m k o) k = lookupLevel m k ++ [o] := by
  intro m
  induction m with
  | nil => intro k o; simp [insertAppend, lookupLevel]
  | cons e rest ih =>
    intro k o
    obtain ⟨k', l⟩ := e
    by_cases h : k' = k
    · simp only [insertAppend, if_pos h, lookupLevel, if_pos h]
    · simp only [insertAppend, if_neg h, lookupLevel, if_neg h]
      exact ih k o

theorem lookupLevel_insertAppend_ne :
    ∀ (m : List (Nat × List Nat)) (k k' o : Nat), k' ≠ k →
      lookupLevel (insertAppend m k o) k' = lookupLevel m k' := by
  intro m
  induction m with
  | nil =>
    intro k k' o h
    simp only [insertAppend, lookupLevel]
    rw [if_neg (fun he => h he.symm)]
  | cons e rest ih =>
    intro k k' o h
    obtain ⟨k0, l⟩ := e
    by_cases h0 : k0 = k
    · have h0' : ¬ k0 = k' := fun he => h (he.symm.trans h0)
      simp only [insertAppend, if_pos h0, lookupLevel, if_neg h0']
    · simp only [insertAppend, if_neg h0, lookupLevel]
      by_cases h2 : k0 = k'
      · simp only [if_pos h2]
      · simp only [if_neg h2]
        exact ih k k' o h

theorem insertAppend_keys :
    ∀ (m : List (Nat × List Nat)) (k o : Nat),
      (insertAppend m k o).map Prod.fst =
        if k ∈ m.map Prod.fst then m.map Prod.fst else m.map Prod.fst ++ [k] := by
  intro m
  induction m with
  | nil => intro k o; simp [insertAppend]
  | cons e rest ih =>
    intro k o
    obtain ⟨k0, l⟩ := e
    by_cases h0 : k0 = k
    · simp only [insertAppend, if_pos h0, List.map_cons]
      rw [if_pos]
      simp [h0]
    · simp only [insertAppend, if_neg h0, List.map_cons, ih k o]
      by_cases h2 : k ∈ rest.map Prod.fst
      · rw [if_pos h2, if_pos (by simp [h2])]
      · rw [if_neg h2, if_neg (by
          simp only [List.mem_cons]
          intro hcon
          rcases hcon with hcon | hcon
          · exact h0 hcon.symm
          · exact h2 hcon)]
        simp

theorem MapInv_insert (G : Graph) (processed : List Nat)
    (m : List (Nat × List Nat)) (o : Nat) (hInv : MapInv G processed m)
    (hel : isEligible G o = true) :
    MapInv G (processed ++ [o]) (insertAppend m (codeCount G o) o) := by
  obtain ⟨hnd, hlook, hcomp⟩ := hInv
  have hkeys := insertAppend_keys m (codeCount G o) o
  refine ⟨?_, ?_, ?_⟩
  · rw [hkeys]
    by_cases hk : codeCount G o ∈ m.map Prod.fst
    · rw [if_pos hk]; exact hnd
    · rw [if_neg hk]
      rw [List.nodup_append]
      exact ⟨hnd, List.nodup_singleton _, by
        intro a ha hb
        rw [List.mem_singleton.mp hb] at ha
        exact hk ha⟩
  · intro k
    by_cases hk : k = codeCount G o
    · rw [hk, lookupLevel_insertAppend_self, hlook]
      rw [List.filter_append]
      congr 1
      simp [bucketPred, hel]
    · rw [lookupLevel_insertAppend_ne m (codeCount G o) k o hk, hlook,
        List.filter_append]
      have : (bucketPred G k) o = false := by
        simp only [bucketPred, Bool.and_eq_false_iff]
        right
        simpa using fun he => hk he.symm
      simp [this]
  · intro o' ho' he'
    rw [hkeys]
    have hsup : m.map Prod.fst ⊆
        (if codeCount G o ∈ m.map Prod.fst then m.map Prod.fst
          else m.map Prod.fst ++ [codeCount G o]) := by
      by_cases hk : codeCount G o ∈ m.map Prod.fst
      · rw [if_pos hk]; exact fun y hy => hy
      · rw [if_neg hk]; exact fun y hy => List.mem_append_left _ hy
    rcases List.mem_append.mp ho' with h2 | h2
    · exact hsup (hcomp o' h2 he')
    · rw [List.mem_singleton.mp h2]
      by_cases hk : codeCount G o ∈ m.map Prod.fst
      · rw [if_pos hk]; exact hk
      · rw [if_neg hk]
        exact List.mem_append_right _ (List.mem_singleton.mpr rfl)

theorem MapInv_skip (G : Graph) (processed : List Nat)
    (m : List (Nat × List Nat)) (o : Nat) (hInv : MapInv G processed m)
    (hel : isEligible G o = false) : MapInv G (processed ++ [o]) m := by
  obtain ⟨hnd, hlook, hcomp⟩ := hInv
  refine ⟨hnd, ?_, ?_⟩
  · intro k
    rw [hlook, List.filter_append]
    have : (bucketPred G k) o = false := by
      simp [bucketPred, hel]
    simp [this]
  · intro o' ho' he'
    rcases List.mem_append.mp ho' with h2 | h2
    · exact hcomp o' h2 he'
    · rw [List.mem_singleton.mp h2] at he' ⊢
      rw [hel] at he'
      exact absurd he' (by simp)

theorem buildMap_MapInv (G : Graph) :
    ∀ (objs : List Nat) (m m' : List (Nat × List Nat)) (processed : List Nat),
      MapInv G processed m → buildMap G objs m = .ok m' →
      MapInv G (processed ++ objs) m' := by
  intro objs
  induction objs with
  | nil =>
    intro m m' processed hInv hok
    simp only [buildMap] at hok
    cases hok
    simpa using hInv
  | cons o rest ih =>
    intro m m' processed hInv hok
    rw [show processed ++ o :: rest = (processed ++ [o]) ++ rest by simp]
    by_cases hel : isEligible G o = true
    · cases hff : firstFatal G (pathsOf G o) with
      | some p =>
        rw [show buildMap G (o :: rest) m = .error p by
          simp only [buildMap, if_pos hel, hff]] at hok
        exact absurd hok (by simp)
      | none =>
        rw [show buildMap G (o :: rest) m =
          buildMap G rest (insertAppend m (codeCount G o) o) by
            simp only [buildMap, if_pos hel, hff]] at hok
        exact ih _ m' (processed ++ [o]) (MapInv_insert G processed m o hInv hel) hok
    · rw [show buildMap G (o :: rest) m = buildMap G rest m by
        simp only [buildMap, if_neg hel]] at hok
      exact ih m m' (processed ++ [o])
        (MapInv_skip G processed m o hInv (Bool.not_eq_true _ ▸ hel)) hok

theorem MapInv_nil (G : Graph) : MapInv G [] [] := by
  refine ⟨List.nodup_nil, ?_, ?_⟩
  · intro k; rfl
  · intro o ho; exact absurd ho (List.not_mem_nil _)

/-- The decomposition of a successful `levels` run: the map satisfies
`MapInv` over the whole object list and the buckets are produced by key
lookups in descending key order. -/
theorem levels_ok_structure (G : Graph) (objs : List Nat) (ls : List (List Nat))
    (h : levels G objs = .ok ls) :
    ∃ m, buildMap G objs [] = .ok m ∧ MapInv G objs m ∧
      ls = (sortDesc (m.map Prod.fst)).map (lookupLevel m) := by
  unfold levels at h
  cases hbm : buildMap G objs [] with
  | error p => rw [hbm] at h; exact absurd h (by simp)
  | ok m =>
    rw [hbm] at h
    refine ⟨m, rfl, ?_, ?_⟩
    · have := buildMap_MapInv G objs [] m [] (MapInv_nil G) hbm
      simpa using this
    · simpa using h.symm

/-! ## The descending key sort -/

theorem insertDesc_perm (k : Nat) : ∀ l : List Nat, List.Perm (insertDesc k l) (k :: l) := by
  intro l
  induction l with
  | nil => exact List.Perm.refl _
  | cons x xs ih =>
    by_cases h : x ≤ k
    · simp only [insertDesc, if_pos h]
      exact List.Perm.refl _
    · simp only [insertDesc, if_neg h]
      exact (ih.cons x).trans (List.Perm.swap k x xs)

theorem sortDesc_perm : ∀ l : List Nat, List.Perm (sortDesc l) l := by
  intro l
  induction l with
  | nil => exact List.Perm.refl _
  | cons x xs ih =>
    show List.Perm (insertDesc x (sortDesc xs)) (x :: xs)
    exact (insertDesc_perm x (sortDesc xs)).trans (ih.cons x)

theorem mem_insertDesc {k y : Nat} {l : List Nat} (h : y ∈ insertDesc k l) :
    y = k ∨ y ∈ l := by
  have := (insertDesc_perm k l).mem_iff.mp h
  simpa using this

theorem insertDesc_sorted (k : Nat) :
    ∀ l : List Nat, l.Pairwise (fun a b => b ≤ a) →
      (insertDesc k l).Pairwise (fun a b => b ≤ a) := by
  intro l
  induction l with
  | nil => intro _; simp [insertDesc]
  | cons x xs ih =>
    intro h
    obtain ⟨hx, hxs⟩ := List.pairwise_cons.mp h
    by_cases hle : x ≤ k
    · simp only [insertDesc, if_pos hle]
      refine List.pairwise_cons.mpr ⟨?_, h⟩
      intro y hy
      rcases List.mem_cons.mp hy with rfl | hy2
      · exact hle
      · exact (hx y hy2).trans hle
    · simp only [insertDesc, if_neg hle]
      refine List.pairwise_cons.mpr ⟨?_, ih hxs⟩
      intro y hy
      rcases mem_insertDesc hy with rfl | hy2
      · omega
      · exact hx y hy2

theorem sortDesc_sorted : ∀ l : List Nat,
    (sortDesc l).Pairwise (fun a b => b ≤ a) := by
  intro l
  induction l with
  | nil => simp [sortDesc]
  | cons x xs ih => exact insertDesc_sorted x (sortDesc xs) ih

theorem sortDesc_strict {l : List Nat} (hnd : l.Nodup) :
    (sortDesc l).Pairwise (fun a b => b < a) := by
  have h1 : (sortDesc l).Pairwise (fun a b => b ≤ a) := sortDesc_sorted l
  have h2 : (sortDesc l).Nodup := (sortDesc_perm l).nodup_iff.mpr hnd
  refine (h1.and h2).imp ?_
  intro a b hab
  exact lt_of_le_of_ne hab.1 (fun he => hab.2 he.symm)

/-! ## Counting objects across the produced buckets -/

theorem count_flatten_eq_sum (x : Nat) :
    ∀ L : List (List Nat), L.flatten.count x = (L.map (List.count x)).sum := by
  intro L
  induction L with
  | nil => rfl
  | cons l rest ih =>
    simp only [List.flatten_cons, List.count_append, List.map_cons, List.sum_cons, ih]

theorem sum_count_single {f : Nat → Nat} {cx : Nat} :
    ∀ {keys : List Nat}, keys.Nodup → (∀ k ∈ keys, k ≠ cx → f k = 0) →
      (keys.map f).sum = if cx ∈ keys then f cx else 0 := by
  intro keys
  induction keys with
  | nil => intro _ _; simp
  | cons k ks ih =>
    intro hnd hz
    obtain ⟨hk, hks⟩ := List.nodup_cons.mp hnd
    by_cases he : k = cx
    · subst he
      have : (ks.map f).sum = 0 := by
        rw [ih hks (fun k2 hk2 hne => hz k2 (List.mem_cons_of_mem _ hk2) hne),
          if_neg hk]
      simp [this]
    · have h0 : f k = 0 := hz k (List.mem_cons_self _ _) he
      rw [List.map_cons, List.sum_cons, h0,
        ih hks (fun k2 hk2 hne => hz k2 (List.mem_cons_of_mem _ hk2) hne), Nat.zero_add]
      by_cases hcx : cx ∈ ks
      · rw [if_pos hcx, if_pos (List.mem_cons_of_mem _ hcx)]
      · rw [if_neg hcx, if_neg (by
          simp only [List.mem_cons]
          intro hcon
          rcases hcon with hcon | hcon
          · exact he hcon.symm
          · exact hcx hcon)]

/-- A successful `levels` run distributes the eligible objects (with
multiplicity and nothing else) over the buckets. -/
theorem levels_join_perm (G : Graph) (objs : List Nat) (ls : List (List Nat))
    (h : levels G objs = .ok ls) :
    List.Perm ls.flatten (objs.filter (fun o => isEligible G o)) := by
  obtain ⟨m, _, ⟨hnd, hlook, hcomp⟩, hls⟩ := levels_ok_structure G objs ls h
  rw [List.perm_iff_count]
  intro x
  rw [hls, count_flatten_eq_sum, List.map_map]
  have hsortnd : (sortDesc (m.map Prod.fst)).Nodup :=
    (sortDesc_perm _).nodup_iff.mpr hnd
  have hzero : ∀ k ∈ sortDesc (m.map Prod.fst), k ≠ codeCount G x →
      (List.count x ∘ lookupLevel m) k = 0 := by
    intro k _ hne
    simp only [Function.comp_apply, hlook k]
    refine List.count_eq_zero.mpr ?_
    intro hcon
    have h2 := (List.mem_filter.mp hcon).2
    simp only [bucketPred, Bool.and_eq_true, beq_iff_eq] at h2
    exact hne h2.2.symm
  rw [sum_count_single hsortnd hzero]
  by_cases hel : isEligible G x = true
  · have hpred : bucketPred G (codeCount G x) x = true := by simp [bucketPred, hel]
    have hcnt : (List.count x ∘ lookupLevel m) (codeCount G x) = List.count x objs := by
      simp only [Function.comp_apply, hlook _]
      exact List.count_filter hpred
    by_cases hmem : codeCount G x ∈ sortDesc (m.map Prod.fst)
    · rw [if_pos hmem, hcnt]
      exact (List.count_filter hel).symm
    · rw [if_neg hmem]
      have hnotin : x ∉ objs := by
        intro hcon
        exact hmem ((sortDesc_perm _).mem_iff.mpr (hcomp x hcon hel))
      exact (List.count_eq_zero.mpr (fun hc => hnotin (List.mem_filter.mp hc).1)).symm
  · have hrhs : List.count x (objs.filter (fun o => isEligible G o)) = 0 :=
      List.count_eq_zero.mpr (fun hc => hel (List.mem_filter.mp hc).2)
    rw [hrhs]
    by_cases hmem : codeCount G x ∈ sortDesc (m.map Prod.fst)
    · rw [if_pos hmem]
      simp only [Function.comp_apply, hlook _]
      refine List.count_eq_zero.mpr ?_
      intro hc
      have h2 := (List.mem_filter.mp hc).2
      simp only [bucketPred, Bool.and_eq_true] at h2
      exact absurd h2.1 hel
    · rw [if_neg hmem]

/-! ## Behavior of the Start/Stop inner loops -/

theorem startLoop_ok (G : Graph) (sB : Nat → Option String) (hasLog : Bool) :
    ∀ l : List Nat, (∀ o ∈ l, (G.value o).startable = true → sB o = none) →
      (startLoop G sB hasLog l).1 = none ∧
      (startLoop G sB hasLog l).2.1 = l.filter (fun o => (G.value o).startable) := by
  intro l
  induction l with
  | nil => intro _; exact ⟨rfl, rfl⟩
  | cons o rest ih =>
    intro hall
    by_cases hs : (G.value o).startable = true
    · have hnone : sB o = none := hall o (List.mem_cons_self _ _) hs
      obtain ⟨ih1, ih2⟩ := ih (fun o' ho' => hall o' (List.mem_cons_of_mem _ ho'))
      have hfc : (o :: rest).filter (fun x => (G.value x).startable) =
          o :: rest.filter (fun x => (G.value x).startable) := by
        rw [List.filter_cons]
        simp [hs]
      constructor
      · simp only [startLoop, if_pos hs, hnone]
        exact ih1
      · rw [hfc]
        simp only [startLoop, if_pos hs, hnone]
        rw [ih2]
    · obtain ⟨ih1, ih2⟩ := ih (fun o' ho' => hall o' (List.mem_cons_of_mem _ ho'))
      have hs' : (G.value o).startable = false := by simpa using hs
      have hfc : (o :: rest).filter (fun x => (G.value x).startable) =
          rest.filter (fun x => (G.value x).startable) := by
        rw [List.filter_cons]
        simp [hs']
      constructor
      · simp only [startLoop, if_neg hs]
        exact ih1
      · rw [hfc]
        simp only [startLoop, if_neg hs]
        exact ih2

theorem stopLoop_calls (G : Graph) (pB : Nat → Option String) (hasLog : Bool) :
    ∀ l : List Nat,
      (stopLoop G pB hasLog l).1 = l.filter (fun o => (G.value o).stoppable) := by
  intro l
  induction l with
  | nil => rfl
  | cons o rest ih =>
    by_cases hs : (G.value o).stoppable = true
    · have hfc : (o :: rest).filter (fun x => (G.value x).stoppable) =
          o :: rest.filter (fun x => (G.value x).stoppable) := by
        rw [List.filter_cons]
        simp [hs]
      rw [hfc]
      simp only [stopLoop, if_pos hs]
      rw [ih]
    · have hs' : (G.value o).stoppable = false := by simpa using hs
      have hfc : (o :: rest).filter (fun x => (G.value x).stoppable) =
          rest.filter (fun x => (G.value x).stoppable) := by
        rw [List.filter_cons]
        simp [hs']
      rw [hfc]
      simp only [stopLoop, if_neg hs]
      exact ih

/-- Fail-fast closed form for `startLoop` over a list of startable objects:
the invoked objects are the successful ones up to and including the first
failure, and the result is that failure if any. -/
theorem startLoop_closed_form (G : Graph) (sB : Nat → Option String)
    (hasLog : Bool) :
    ∀ l : List Nat, (∀ o ∈ l, (G.value o).startable = true) →
      (startLoop G sB hasLog l).1 =
        ((l.drop (l.takeWhile (fun o => (sB o).isNone)).length).head?).bind
          (fun o => (sB o).map SSError.start) ∧
      (startLoop G sB hasLog l).2.1 =
        l.takeWhile (fun o => (sB o).isNone) ++
          (l.drop (l.takeWhile (fun o => (sB o).isNone)).length).take 1 := by
  intro l
  induction l with
  | nil => intro _; exact ⟨rfl, rfl⟩
  | cons o rest ih =>
    intro hall
    have hs : (G.value o).startable = true := hall o (List.mem_cons_self _ _)
    cases hso : sB o with
    | some e =>
      have htw : (o :: rest).takeWhile (fun o => (sB o).isNone) = [] := by
        simp [List.takeWhile_cons, hso]
      constructor
      · simp only [startLoop, if_pos hs, hso, htw, List.length_nil, List.drop_zero,
          List.head?_cons]
        simp [hso]
      · simp only [startLoop, if_pos hs, hso, htw, List.length_nil, List.drop_zero,
          List.nil_append]
        simp
    | none =>
      obtain ⟨ih1, ih2⟩ := ih (fun o' ho' => hall o' (List.mem_cons_of_mem _ ho'))
      have htw : (o :: rest).takeWhile (fun o => (sB o).isNone) =
          o :: rest.takeWhile (fun o => (sB o).isNone) := by
        simp [List.takeWhile_cons, hso]
      constructor
      · simp only [startLoop, if_pos hs, hso, htw, List.length_cons, List.drop_succ_cons]
        exact ih1
      · simp only [startLoop, if_pos hs, hso, htw, List.length_cons, List.drop_succ_cons,
          List.cons_append]
        rw [ih2]

/-- Dropping objects without the startable capability never changes what
`startLoop` does. -/
theorem startLoop_filter (G : Graph) (sB : Nat → Option String) (hasLog : Bool) :
    ∀ l : List Nat,
      startLoop G sB hasLog l =
        startLoop G sB hasLog (l.filter (fun o => (G.value o).startable)) := by
  intro l
  induction l with
  | nil => rfl
  | cons o rest ih =>
    by_cases hs : (G.value o).startable = true
    · have hfc : (o :: rest).filter (fun x => (G.value x).startable) =
          o :: rest.filter (fun x => (G.value x).startable) := by
        rw [List.filter_cons]
        simp [hs]
      rw [hfc]
      simp only [startLoop, if_pos hs]
      cases sB o with
      | some e => rfl
      | none => rw [ih]
    · have hs' : (G.value o).startable = false := by simpa using hs
      have hfc : (o :: rest).filter (fun x => (G.value x).startable) =
          rest.filter (fun x => (G.value x).startable) := by
        rw [List.filter_cons]
        simp [hs']
      rw [hfc]
      simp only [startLoop, if_neg hs]
      exact ih

/-- Whether a log event is an error-level event. -/
def isErrorEv : LogEvent → Bool
  | .errorEv _ => true
  | .debugEv _ => false

@[simp] theorem isErrorEv_debug (s : String) : isErrorEv (.debugEv s) = false := rfl

@[simp] theorem isErrorEv_error (s : String) : isErrorEv (.errorEv s) = true := rfl

/-- With a logger present, `stopLoop` emits exactly one error event per
stoppable object whose stop behavior fails, in order. -/
theorem stopLoop_error_logs (G : Graph) (pB : Nat → Option String) :
    ∀ l : List Nat,
      (stopLoop G pB true l).2.filter isErrorEv =
        (l.filter (fun o => (G.value o).stoppable && (pB o).isSome)).map
          (fun o => LogEvent.errorEv
            ("error stopping " ++ (G.value o).display ++ ": " ++ (pB o).getD "")) := by
  intro l
  induction l with
  | nil => rfl
  | cons o rest ih =>
    by_cases hs : (G.value o).stoppable = true
    · cases hpo : pB o with
      | some e =>
        have hfc : (o :: rest).filter
            (fun x => (G.value x).stoppable && (pB x).isSome) =
            o :: rest.filter (fun x => (G.value x).stoppable && (pB x).isSome) := by
          rw [List.filter_cons]
          simp [hs, hpo]
        rw [hfc]
        simp only [stopLoop, if_pos hs, hpo, List.map_cons]
        simp only [List.filter_append, List.filter_cons, isErrorEv]
        simp [ih, hpo]
      | none =>
        have hfc : (o :: rest).filter
            (fun x => (G.value x).stoppable && (pB x).isSome) =
            rest.filter (fun x => (G.value x).stoppable && (pB x).isSome) := by
          rw [List.filter_cons]
          simp [hs, hpo]
        rw [hfc]
        simp only [stopLoop, if_pos hs, hpo]
        simp only [List.filter_append, List.filter_cons, isErrorEv]
        simp [ih]
    · have hfc : (o :: rest).filter
          (fun x => (G.value x).stoppable && (pB x).isSome) =
          rest.filter (fun x => (G.value x).stoppable && (pB x).isSome) := by
        rw [List.filter_cons]
        simp [hs]
      rw [hfc]
      simp only [stopLoop, if_neg hs]
      exact ih

/-- Neither the result nor the invocation of `startLoop` depends on whether
a logger is present. -/
theorem startLoop_log_indep (G : Graph) (sB : Nat → Option String) :
    ∀ (l : List Nat) (h₁ h₂ : Bool),
      (startLoop G sB h₁ l).1 = (startLoop G sB h₂ l).1 ∧
      (startLoop G sB h₁ l).2.1 = (startLoop G sB h₂ l).2.1 := by
  intro l
  induction l with
  | nil => intro h₁ h₂; exact ⟨rfl, rfl⟩
  | cons o rest ih =>
    intro h₁ h₂
    by_cases hs : (G.value o).startable = true
    · cases hsb : sB o with
      | some e => constructor <;> simp [startLoop, if_pos hs, hsb]
      | none =>
        obtain ⟨ih1, ih2⟩ := ih h₁ h₂
        simp only [startLoop, if_pos hs, hsb]
        exact ⟨ih1, by rw [ih2]⟩
    · simp only [startLoop, if_neg hs]
      exact ih h₁ h₂

theorem stopLoop_log_indep (G : Graph) (pB : Nat → Option String) :
    ∀ (l : List Nat) (h₁ h₂ : Bool),
      (stopLoop G pB h₁ l).1 = (stopLoop G pB h₂ l).1 := by
  intro l
  induction l with
  | nil => intro _ _; rfl
  | cons o rest ih =>
    intro h₁ h₂
    by_cases hs : (G.value o).stoppable = true
    · simp only [stopLoop, if_pos hs]
      rw [ih h₁ h₂]
    · simp only [stopLoop, if_neg hs]
      exact ih h₁ h₂

/-! ## Relative position of buckets in the flattened level order -/

theorem indexOf_append_lt {x y : Nat} {l₁ l₂ : List Nat} (hx : x ∈ l₁)
    (hy : y ∉ l₁) : (l₁ ++ l₂).indexOf x < (l₁ ++ l₂).indexOf y := by
  rw [List.indexOf_append_of_mem hx, List.indexOf_append_of_not_mem hy]
  have := List.indexOf_lt_length.mpr hx
  omega

theorem mem_split_of_pairwise {R : Nat → Nat → Prop} :
    ∀ {ks : List Nat}, ks.Pairwise R → ∀ {c1 c2 : Nat}, c1 ∈ ks → c2 ∈ ks →
      c2 ≠ c1 → ¬ R c2 c1 → ∃ p q, ks = p ++ c1 :: q ∧ c2 ∈ q := by
  intro ks hPW c1 c2 h1 h2 hne hnR
  obtain ⟨p, q, rfl⟩ := List.append_of_mem h1
  obtain ⟨_, _, hcross⟩ := List.pairwise_append.mp hPW
  refine ⟨p, q, rfl, ?_⟩
  rcases List.mem_append.mp h2 with h3 | h3
  · exact absurd (hcross c2 h3 c1 (List.mem_cons_self _ _)) hnR
  · rcases List.mem_cons.mp h3 with h4 | h4
    · exact absurd h4 hne
    · exact h4

/-- In the flattened start order of a successful `levels` run, all objects
with a strictly smaller count appear in a strictly earlier segment than any
given eligible object. -/
theorem levels_before_start (G : Graph) (objs : List Nat) (ls : List (List Nat))
    (h : levels G objs = .ok ls) {A B : Nat}
    (hA : A ∈ objs) (hB : B ∈ objs)
    (hAe : isEligible G A = true) (hBe : isEligible G B = true)
    (hlt : codeCount G B < codeCount G A) :
    ∃ l₁ l₂, ls.reverse.flatten = l₁ ++ l₂ ∧ B ∈ l₁ ∧ A ∉ l₁ ∧ A ∈ l₂ := by
  obtain ⟨m, _, ⟨hnd, hlook, hcomp⟩, hls⟩ := levels_ok_structure G objs ls h
  have hmemB : codeCount G B ∈ sortDesc (m.map Prod.fst) :=
    (sortDesc_perm _).mem_iff.mpr (hcomp B hB hBe)
  have hmemA : codeCount G A ∈ sortDesc (m.map Prod.fst) :=
    (sortDesc_perm _).mem_iff.mpr (hcomp A hA hAe)
  have hasc : ((sortDesc (m.map Prod.fst)).reverse).Pairwise (fun a b => a < b) := by
    rw [List.pairwise_reverse]
    exact sortDesc_strict hnd
  obtain ⟨p, q, hsplit, hAq⟩ := mem_split_of_pairwise hasc
    (List.mem_reverse.mpr hmemB) (List.mem_reverse.mpr hmemA)
    (fun he => by omega) (by omega)
  have hflat : ls.reverse.flatten =
      ((p.map (lookupLevel m)).flatten ++ lookupLevel m (codeCount G B)) ++
        (q.map (lookupLevel m)).flatten := by
    rw [hls, ← List.map_reverse, hsplit]
    simp [List.flatten_append]
  have hmemBucket : ∀ (x : Nat) (k : Nat), x ∈ lookupLevel m k →
      x ∈ objs ∧ isEligible G x = true ∧ codeCount G x = k := by
    intro x k hx
    rw [hlook k] at hx
    obtain ⟨hm, hp⟩ := List.mem_filter.mp hx
    simp only [bucketPred, Bool.and_eq_true, beq_iff_eq] at hp
    exact ⟨hm, hp.1, hp.2⟩
  refine ⟨(p.map (lookupLevel m)).flatten ++ lookupLevel m (codeCount G B),
    (q.map (lookupLevel m)).flatten, hflat, ?_, ?_, ?_⟩
  · refine List.mem_append_right _ ?_
    rw [hlook _]
    refine List.mem_filter.mpr ⟨hB, ?_⟩
    simp [bucketPred, hBe]
  · intro hcon
    rcases List.mem_append.mp hcon with h2 | h2
    · obtain ⟨lb, hlb, hAlb⟩ := List.mem_flatten.mp h2
      obtain ⟨k, hk, rfl⟩ := List.mem_map.mp hlb
      have := (hmemBucket A k hAlb).2.2
      -- p's keys precede codeCount G B in ascending strict order, so k < count B < count A
      obtain ⟨_, _, hcross⟩ := List.pairwise_append.mp (hsplit ▸ hasc)
      have hklt : k < codeCount G B := hcross k hk _ (List.mem_cons_self _ _)
      omega
    · have := (hmemBucket A _ h2).2.2
      omega
  · refine List.mem_flatten.mpr ⟨lookupLevel m (codeCount G A), ?_, ?_⟩
    · exact List.mem_map.mpr ⟨codeCount G A, hAq, rfl⟩
    · rw [hlook _]
      refine List.mem_filter.mpr ⟨hA, ?_⟩
      simp [bucketPred, hAe]

/-- In the flattened stop order, all objects with a strictly larger count
appear in a strictly earlier segment. -/
theorem levels_before_stop (G : Graph) (objs : List Nat) (ls : List (List Nat))
    (h : levels G objs = .ok ls) {A B : Nat}
    (hA : A ∈ objs) (hB : B ∈ objs)
    (hAe : isEligible G A = true) (hBe : isEligible G B = true)
    (hlt : codeCount G B < codeCount G A) :
    ∃ l₁ l₂, ls.flatten = l₁ ++ l₂ ∧ A ∈ l₁ ∧ B ∉ l₁ ∧ B ∈ l₂ := by
  obtain ⟨m, _, ⟨hnd, hlook, hcomp⟩, hls⟩ := levels_ok_structure G objs ls h
  have hmemB : codeCount G B ∈ sortDesc (m.map Prod.fst) :=
    (sortDesc_perm _).mem_iff.mpr (hcomp B hB hBe)
  have hmemA : codeCount G A ∈ sortDesc (m.map Prod.fst) :=
    (sortDesc_perm _).mem_iff.mpr (hcomp A hA hAe)
  have hdesc : (sortDesc (m.map Prod.fst)).Pairwise (fun a b => b < a) :=
    sortDesc_strict hnd
  obtain ⟨p, q, hsplit, hBq⟩ := mem_split_of_pairwise hdesc hmemA hmemB
    (fun he => by omega) (by omega)
  have hflat : ls.flatten =
      ((p.map (lookupLevel m)).flatten ++ lookupLevel m (codeCount G A)) ++
        (q.map (lookupLevel m)).flatten := by
    rw [hls, hsplit]
    simp [List.flatten_append]
  have hmemBucket : ∀ (x : Nat) (k : Nat), x ∈ lookupLevel m k →
      x ∈ objs ∧ isEligible G x = true ∧ codeCount G x = k := by
    intro x k hx
    rw [hlook k] at hx
    obtain ⟨hm, hp⟩ := List.mem_filter.mp hx
    simp only [bucketPred, Bool.and_eq_true, beq_iff_eq] at hp
    exact ⟨hm, hp.1, hp.2⟩
  refine ⟨(p.map (lookupLevel m)).flatten ++ lookupLevel m (codeCount G A),
    (q.map (lookupLevel m)).flatten, hflat, ?_, ?_, ?_⟩
  · refine List.mem_append_right _ ?_
    rw [hlook _]
    refine List.mem_filter.mpr ⟨hA, ?_⟩
    simp [bucketPred, hAe]
  · intro hcon
    rcases List.mem_append.mp hcon with h2 | h2
    · obtain ⟨lb, hlb, hBlb⟩ := List.mem_flatten.mp h2
      obtain ⟨k, hk, rfl⟩ := List.mem_map.mp hlb
      have := (hmemBucket B k hBlb).2.2
      obtain ⟨_, _, hcross⟩ := List.pairwise_append.mp (hsplit ▸ hdesc)
      have hkgt : codeCount G A < k := hcross k hk _ (List.mem_cons_self _ _)
      omega
    · have := (hmemBucket B _ h2).2.2
      omega
  · refine List.mem_flatten.mpr ⟨lookupLevel m (codeCount G B), ?_, ?_⟩
    · exact List.mem_map.mpr ⟨codeCount G B, hBq, rfl⟩
    · rw [hlook _]
      refine List.mem_filter.mpr ⟨hB, ?_⟩
      simp [bucketPred, hBe]

/-! ## Bridges used by the claim theorems -/

theorem WF_of_WFb (G : Graph) (h : G.WFb = true) : G.WF := by
  intro a fv hfv
  unfold Graph.fields at hfv
  rcases Nat.lt_or_ge a G.flds.length with ha | ha
  · rw [List.getD_eq_getElem G.flds [] ha] at hfv
    unfold Graph.WFb at h
    rw [List.all_eq_true] at h
    have h2 := h (G.flds[a]) (List.getElem_mem ha)
    rw [List.all_eq_true] at h2
    have h3 := h2 fv hfv
    simpa using h3
  · rw [List.getD_eq_default _ _ (by omega)] at hfv
    exact absurd hfv (List.not_mem_nil _)

theorem edgeChainTo_transGen (G : Graph) (tgt : Nat) :
    ∀ l : List Nat, EdgeChainTo G tgt l →
      Relation.TransGen (Edge G) (l.headD 0) tgt
  | [] => fun h => absurd h (fun h2 => h2)
  | [v] => fun h => Relation.TransGen.single h
  | v :: w :: rest => fun h =>
      (Relation.TransGen.single h.1).trans (edgeChainTo_transGen G tgt (w :: rest) h.2)

/-- In an acyclic graph no object discovers any path back to itself. -/
theorem pathsOf_eq_nil_of_acyclic (G : Graph)
    (hacyc : ∀ v, ¬ Relation.TransGen (Edge G) v v) (o : Nat) :
    pathsOf G o = [] := by
  cases hp : pathsOf G o with
  | nil => rfl
  | cons p rest =>
    exfalso
    have hpm : p ∈ pathsOf G o := by rw [hp]; exact List.mem_cons_self _ _
    obtain ⟨hfol, t, hmap, _, _⟩ := ap_paths G (apFuel G) o o [] p hpm
    have hchain := follows_edgeChain G o p hfol
    rw [hmap] at hchain
    have := edgeChainTo_transGen G o (o :: t) hchain
    simp only [List.headD_cons] at this
    exact hacyc o this

theorem levels_ok_of_acyclic (G : Graph) (objs : List Nat)
    (hacyc : ∀ v, ¬ Relation.TransGen (Edge G) v v) :
    ∃ ls, levels G objs = .ok ls := by
  obtain ⟨m, hm⟩ := buildMap_ok_of_no_fatal G objs []
    (fun o _ _ => by rw [pathsOf_eq_nil_of_acyclic G hacyc o]; rfl)
  refine ⟨(sortDesc (m.map Prod.fst)).map (lookupLevel m), ?_⟩
  simp only [levels, hm]

/-- When no eligible object has a direct self-edge and every cycle through an
eligible object touches exactly one eligible object, no discovered path is
fatal. -/
theorem firstFatal_none_of_benign (G : Graph)
    (hNoSelf : ∀ o, isEligible G o = true → ∀ f, (f, o) ∉ G.fields o)
    (hCyc : ∀ l, IsCycle G l → (∃ v ∈ l, isEligible G v = true) →
      (l.filter (fun v => isEligible G v)).dedup.length = 1)
    (o : Nat) (hel : isEligible G o = true) :
    firstFatal G (pathsOf G o) = none := by
  rw [firstFatal_eq_none_iff]
  intro p hp
  obtain ⟨hfol, t, hmap, hndt, hfresh⟩ := ap_paths G (apFuel G) o o [] p hp
  have hndl : (p.map Step.obj).Nodup := by
    rw [hmap]
    refine List.nodup_cons.mpr ⟨?_, hndt⟩
    intro hmem
    exact (hfresh o hmem).2.1 rfl
  constructor
  · intro hlen1
    match p, hlen1 with
    | [s], _ =>
      have hso : s.obj = o := by
        simp only [List.map_cons, List.map_nil] at hmap
        exact (List.cons_eq_cons.mp hmap).1
      have : (s.fieldName, o) ∈ G.fields s.obj := hfol
      rw [hso] at this
      exact hNoSelf o hel s.fieldName this
  · by_contra hcnt
    have hcnt2 : 1 < (p.map Step.obj).countP (fun v => isEligible G v) := by
      have he : (p.map Step.obj).countP (fun v => isEligible G v) =
          p.countP (fun s => isEligible G s.obj) := by
        rw [List.countP_map]
        rfl
      omega
    have hchain := follows_edgeChain G o p hfol
    have hcycle : IsCycle G (p.map Step.obj) := by
      refine ⟨by rw [hmap]; exact List.cons_ne_nil _ _, ?_⟩
      rw [hmap] at hchain ⊢
      simpa using hchain
    have hov : ∃ v ∈ p.map Step.obj, isEligible G v = true := by
      refine ⟨o, ?_, hel⟩
      rw [hmap]
      exact List.mem_cons_self _ _
    have h1 := hCyc (p.map Step.obj) hcycle hov
    have hflt : ((p.map Step.obj).filter (fun v => isEligible G v)).Nodup :=
      hndl.filter _
    rw [List.Nodup.dedup hflt] at h1
    rw [← List.countP_eq_length_filter] at h1
    omega

/-- On well-formed graphs the code's `startStopDeps` count equals the
specification's count of eligible nodes other than the node itself in its
reachability set. -/
theorem codeCount_eq_specCountEx (G : Graph) (hWF : G.WF) (o : Nat) :
    codeCount G o = specCountEx G o := by
  unfold codeCount specCountEx
  have hset : {v | Relation.TransGen (Edge G) o v ∧ v ≠ o ∧ isEligible G v} =
      ↑(((seenOf G o).filter (fun d => isEligible G d)).toFinset) := by
    ext x
    simp only [Set.mem_setOf_eq, Finset.coe_sort_coe, Finset.mem_coe,
      List.mem_toFinset, List.mem_filter]
    rw [seenOf_iff G hWF o x]
    constructor
    · intro ⟨h1, h2, h3⟩; exact ⟨⟨h1, h2⟩, h3⟩
    · intro ⟨⟨h1, h2⟩, h3⟩; exact ⟨h1, h2, h3⟩
  rw [hset, Set.ncard_coe_Finset,
    List.toFinset_card_of_nodup ((seenOf_nodup G o).filter _)]

/-! ## Small helpers for concrete graphs -/

theorem startLoop_res_shape (G : Graph) (sB : Nat → Option String) (hasLog : Bool) :
    ∀ l : List Nat, (startLoop G sB hasLog l).1 = none ∨
      ∃ e, (startLoop G sB hasLog l).1 = some (.start e) := by
  intro l
  induction l with
  | nil => exact Or.inl rfl
  | cons o rest ih =>
    by_cases hs : (G.value o).startable = true
    · cases hsb : sB o with
      | some e =>
        refine Or.inr ⟨e, ?_⟩
        simp [startLoop, if_pos hs, hsb]
      | none =>
        simpa [startLoop, if_pos hs, hsb] using ih
    · simpa [startLoop, if_neg hs] using ih

theorem edge_src_lt (G : Graph) {a b : Nat} (h : Edge G a b) :
    a < G.flds.length := by
  obtain ⟨fv, hfv, _⟩ := h
  by_contra hge
  unfold Graph.fields at hfv
  rw [List.getD_eq_default _ _ (by omega)] at hfv
  exact absurd hfv (List.not_mem_nil _)

theorem elig_lt (G : Graph) {x : Nat} (h : isEligible G x = true) :
    x < G.vals.length := by
  by_contra hge
  unfold isEligible Graph.value at h
  rw [List.getD_eq_default _ _ (by omega)] at h
  exact absurd h (by simp)

theorem edgeChainTo_sources (G : Graph) (tgt : Nat) :
    ∀ l : List Nat, EdgeChainTo G tgt l → ∀ v ∈ l, ∃ w, Edge G v w
  | [] => fun h => absurd h (fun h2 => h2)
  | [v] => fun h v' hv' => by
      rw [List.mem_singleton.mp hv']
      exact ⟨tgt, h⟩
  | v :: w :: rest => fun h v' hv' => by
      rcases List.mem_cons.mp hv' with rfl | hv2
      · exact ⟨w, h.1⟩
      · exact edgeChainTo_sources G tgt (w :: rest) h.2 v' hv2

theorem dedup_const (c : Nat) :
    ∀ l : List Nat, l ≠ [] → (∀ x ∈ l, x = c) → l.dedup = [c] := by
  intro l
  induction l with
  | nil => intro h; exact absurd rfl h
  | cons x xs ih =>
    intro _ hall
    have hx : x = c := hall x (List.mem_cons_self _ _)
    subst hx
    cases xs with
    | nil => rfl
    | cons y ys =>
      have hy : y = x := (hall y (List.mem_cons_of_mem _ (List.mem_cons_self _ _))).trans rfl
      have hmem : x ∈ y :: ys := by rw [hy]; exact List.mem_cons_self _ _
      rw [List.dedup_cons_of_mem hmem]
      exact ih (List.cons_ne_nil _ _) (fun z hz => hall z (List.mem_cons_of_mem _ hz))

/-! ## Concrete graphs used by counterexamples and witnesses -/

/-- Two eligible objects in a two-cycle, plus an eligible object with a
direct self-edge. -/
def gPairSelf : Graph :=
  { vals := [⟨true, true, "A"⟩, ⟨true, true, "B"⟩, ⟨true, true, "C"⟩],
    flds := [[("f1", 1)], [("f0", 0)], [("f2", 2)]] }

/-- A single eligible object with a direct self-edge. -/
def gSelf : Graph := { vals := [⟨true, true, "A"⟩], flds := [[("A", 0)]] }

/-- A four-object cycle through two eligible objects, with shortcut edges
that make the visited-set pruning skip the fatal cycle. -/
def gMissed : Graph :=
  { vals := [⟨true, true, "E1"⟩, ⟨false, false, "a"⟩, ⟨true, true, "E2"⟩,
      ⟨false, false, "b"⟩],
    flds := [[("sb", 3), ("a", 1)], [("c", 2)], [("sa", 1), ("d", 3)], [("e", 0)]] }

/-- Two eligible objects in a two-cycle. -/
def gPair : Graph :=
  { vals := [⟨true, true, "A"⟩, ⟨true, true, "B"⟩], flds := [[("f1", 1)], [("f0", 0)]] }

/-- An eligible object on a benign cycle through an ineligible object, plus
an isolated eligible object. -/
def gBenignPair : Graph :=
  { vals := [⟨true, true, "A"⟩, ⟨false, false, "x"⟩, ⟨true, true, "B"⟩],
    flds := [[("x", 1)], [("A", 0)], []] }

/-- Two eligible objects, the first depending on the second; acyclic. -/
def gLine : Graph :=
  { vals := [⟨true, true, "A"⟩, ⟨true, true, "B"⟩], flds := [[("b", 1)], []] }

/-- One eligible object on a triangle whose other two objects are
ineligible. -/
def gTriOne : Graph :=
  { vals := [⟨true, true, "A"⟩, ⟨false, false, "B"⟩, ⟨false, false, "C"⟩],
    flds := [[("B", 1)], [("C", 2)], [("A", 0)]] }

theorem edge_gSelf {a b : Nat} (h : Edge gSelf a b) : a = 0 ∧ b = 0 := by
  have ha : a < 1 := edge_src_lt gSelf h
  interval_cases a
  obtain ⟨fv, hfv, he⟩ := h
  have : fv = ("A", 0) := List.mem_singleton.mp hfv
  rw [this] at he
  exact ⟨rfl, he.symm⟩

theorem edge_gLine {a b : Nat} (h : Edge gLine a b) : a = 0 ∧ b = 1 := by
  have ha : a < 2 := edge_src_lt gLine h
  interval_cases a
  · obtain ⟨fv, hfv, he⟩ := h
    have : fv = ("b", 1) := List.mem_singleton.mp hfv
    rw [this] at he
    exact ⟨rfl, he.symm⟩
  · obtain ⟨fv, hfv, _⟩ := h
    have h1 : gLine.fields 1 = [] := rfl
    rw [h1] at hfv
    exact absurd hfv (List.not_mem_nil _)

theorem acyclic_gLine : ∀ v, ¬ Relation.TransGen (Edge gLine) v v := by
  have hkey : ∀ a b, Relation.TransGen (Edge gLine) a b → a = 0 ∧ b = 1 := by
    intro a b h
    induction h with
    | single h1 => exact edge_gLine h1
    | tail _ h2 ih =>
      obtain ⟨rfl, rfl⟩ := ih
      obtain ⟨h3, _⟩ := edge_gLine h2
      exact absurd h3 (by decide)
  intro v h
  obtain ⟨h0, h1⟩ := hkey v v h
  rw [h0] at h1
  exact absurd h1 (by decide)

theorem elig_gTriOne : ∀ x, isEligible gTriOne x = true → x = 0 := by
  intro x hx
  have hx3 : x < 3 := elig_lt gTriOne hx
  interval_cases x
  · rfl
  · exact absurd hx (by decide)
  · exact absurd hx (by decide)

/-! ## Claim C2 -/

/-- C2 counterexample: `gPairSelf` contains the eligible self-looping object
`2`, yet Start and Stop return the two-node cycle error discovered first for
object `0`, which is not the self-loop error (its path has length 2). -/
theorem selfLoop_error_superseded_cx :
    isEligible gPairSelf 2 = true ∧ ("f2", 2) ∈ gPairSelf.fields 2 ∧
    (2 : Nat) ∈ [0, 1, 2] ∧
    (Start gPairSelf [0, 1, 2] (fun _ => none) true).1 =
      some (.cycle [⟨"f1", 0⟩, ⟨"f0", 1⟩]) ∧
    (Stop gPairSelf [0, 1, 2] (fun _ => none) true).1 =
      some (.cycle [⟨"f1", 0⟩, ⟨"f0", 1⟩]) ∧
    ¬ (∃ p, (Start gPairSelf [0, 1, 2] (fun _ => none) true).1 =
        some (.cycle p) ∧ p.length = 1) := by
  refine ⟨by decide, by decide, by decide, by decide, by decide, ?_⟩
  intro ⟨p, hp, hlen⟩
  rw [show (Start gPairSelf [0, 1, 2] (fun _ => none) true).1 =
      some (SSError.cycle [⟨"f1", 0⟩, ⟨"f0", 1⟩]) from rfl] at hp
  have h1 := Option.some.inj hp
  have h2 : p = [⟨"f1", 0⟩, ⟨"f0", 1⟩] := by
    cases h1; rfl
  rw [h2] at hlen
  exact absurd hlen (by decide)

/-- C2 (amended): a direct self-edge on an eligible object in the input
always makes both Start and Stop fail with a cycle error — though not
necessarily the self-loop error, if another fatal path is discovered first —
and no start or stop behavior is ever invoked. -/
theorem selfEdge_always_cycle_error (G : Graph) (objs : List Nat)
    (sB pB : Nat → Option String) (hasLog : Bool) (o : Nat) (f : String)
    (ho : o ∈ objs) (hel : isEligible G o = true)
    (hself : (f, o) ∈ G.fields o) :
    ∃ p, levels G objs = .error p ∧
      Start G objs sB hasLog = (some (.cycle p), [], []) ∧
      Stop G objs pB hasLog = (some (.cycle p), [], []) := by
  have hmem := selfLoop_path_mem G o f hself
  have hfat : firstFatal G (pathsOf G o) ≠ none := by
    intro hn
    have := ((firstFatal_eq_none_iff G _).mp hn _ hmem).1
    exact this rfl
  obtain ⟨p, hp⟩ := levels_error_of_fatal G objs o ho hel hfat
  exact ⟨p, hp, by simp [Start, hp], by simp [Stop, hp]⟩

theorem selfEdge_always_cycle_error_witness :
    (0 : Nat) ∈ [0] ∧ isEligible gSelf 0 = true ∧ ("A", 0) ∈ gSelf.fields 0 ∧
    ∃ p, levels gSelf [0] = .error p ∧
      Start gSelf [0] (fun _ => none) true = (some (.cycle p), [], []) ∧
      Stop gSelf [0] (fun _ => none) true = (some (.cycle p), [], []) :=
  ⟨by decide, by decide, by decide,
    selfEdge_always_cycle_error gSelf [0] (fun _ => none) (fun _ => none) true 0 "A"
      (by decide) (by decide) (by decide)⟩

/-! ## Claim C3 -/

/-- C3 counterexample: in `gSelf` every cycle through an eligible object
touches exactly one eligible object (object `0` alone), yet Start and Stop
fail with a cycle error, because a direct self-cycle is special-cased as
always fatal. -/
theorem single_eligible_cycle_still_fatal_cx :
    (∀ l, IsCycle gSelf l → (∃ v ∈ l, isEligible gSelf v = true) →
      (l.filter (fun v => isEligible gSelf v)).dedup.length = 1) ∧
    (Start gSelf [0] (fun _ => none) true).1 = some (.cycle [⟨"A", 0⟩]) ∧
    (Stop gSelf [0] (fun _ => none) true).1 = some (.cycle [⟨"A", 0⟩]) ∧
    (Start gSelf [0] (fun _ => none) true).2.1 = [] := by
  refine ⟨?_, by decide, by decide, by decide⟩
  intro l hcyc _
  have hall : ∀ v ∈ l, v = 0 := by
    intro v hv
    obtain ⟨w, hw⟩ := edgeChainTo_sources gSelf _ l hcyc.2 v hv
    exact (edge_gSelf hw).1
  have hfe : l.filter (fun v => isEligible gSelf v) = l := by
    rw [List.filter_eq_self]
    intro v hv
    rw [hall v hv]
    decide
  rw [hfe, dedup_const 0 l hcyc.1 hall]
  rfl

/-- C3 (amended): if no eligible object has a direct self-edge and every
cycle through an eligible object touches exactly one eligible object, then
`levels` succeeds, Start never returns a cycle error (only node start
failures), and Stop succeeds. -/
theorem benign_cycles_no_cycle_error (G : Graph) (objs : List Nat)
    (sB pB : Nat → Option String) (hasLog : Bool)
    (hNoSelf : ∀ o, isEligible G o = true → ∀ f, (f, o) ∉ G.fields o)
    (hCyc : ∀ l, IsCycle G l → (∃ v ∈ l, isEligible G v = true) →
      (l.filter (fun v => isEligible G v)).dedup.length = 1) :
    ∃ ls, levels G objs = .ok ls ∧
      ((Start G objs sB hasLog).1 = none ∨
        ∃ e, (Start G objs sB hasLog).1 = some (.start e)) ∧
      (Stop G objs pB hasLog).1 = none := by
  obtain ⟨m, hm⟩ := buildMap_ok_of_no_fatal G objs []
    (fun o _ hel => firstFatal_none_of_benign G hNoSelf hCyc o hel)
  have hlev : levels G objs = .ok ((sortDesc (m.map Prod.fst)).map (lookupLevel m)) := by
    simp only [levels, hm]
  refine ⟨_, hlev, ?_, ?_⟩
  · simp only [Start, hlev]
    exact startLoop_res_shape G sB hasLog _
  · simp only [Stop, hlev]

theorem benign_cycles_no_cycle_error_witness :
    (∀ o, isEligible gTriOne o = true → ∀ f, (f, o) ∉ gTriOne.fields o) ∧
    (∀ l, IsCycle gTriOne l → (∃ v ∈ l, isEligible gTriOne v = true) →
      (l.filter (fun v => isEligible gTriOne v)).dedup.length = 1) ∧
    ∃ ls, levels gTriOne [0, 1, 2] = .ok ls ∧
      ((Start gTriOne [0, 1, 2] (fun _ => none) true).1 = none ∨
        ∃ e, (Start gTriOne [0, 1, 2] (fun _ => none) true).1 = some (.start e)) ∧
      (Stop gTriOne [0, 1, 2] (fun _ => none) true).1 = none := by
  have hNoSelf : ∀ o, isEligible gTriOne o = true → ∀ f, (f, o) ∉ gTriOne.fields o := by
    intro o hel f hcon
    rw [elig_gTriOne o hel] at hcon
    have : (f, 0) = ("B", 1) := List.mem_singleton.mp hcon
    exact absurd (Prod.mk.injEq _ _ _ _ |>.mp this).2 (by decide)
  have hCyc : ∀ l, IsCycle gTriOne l → (∃ v ∈ l, isEligible gTriOne v = true) →
      (l.filter (fun v => isEligible gTriOne v)).dedup.length = 1 := by
    intro l _ hex
    obtain ⟨v, hv, hel⟩ := hex
    have hv0 : v = 0 := elig_gTriOne v hel
    have hne : l.filter (fun v => isEligible gTriOne v) ≠ [] := by
      intro hcon
      have : v ∈ l.filter (fun v => isEligible gTriOne v) :=
        List.mem_filter.mpr ⟨hv, hel⟩
      rw [hcon] at this
      exact absurd this (List.not_mem_nil _)
    have hall : ∀ x ∈ l.filter (fun v => isEligible gTriOne v), x = 0 := by
      intro x hx
      exact elig_gTriOne x (List.mem_filter.mp hx).2
    rw [dedup_const 0 _ hne hall]
    rfl
  exact ⟨hNoSelf, hCyc,
    benign_cycles_no_cycle_error gTriOne [0, 1, 2] (fun _ => none) (fun _ => none)
      true hNoSelf hCyc⟩

/-! ## Claim C4 -/

/-- C4 counterexample: `gMissed` contains the cycle `0 → 1 → 2 → 3 → 0`
touching the two eligible objects `0` and `2`, yet Start and Stop succeed
and invoke both objects' behaviors: the shared visited set prunes the fatal
cycle before it is discovered. -/
theorem multi_eligible_cycle_missed_cx :
    IsCycle gMissed [0, 1, 2, 3] ∧
    2 ≤ ([0, 1, 2, 3].filter (fun v => isEligible gMissed v)).length ∧
    (Start gMissed [0, 1, 2, 3] (fun _ => none) true).1 = none ∧
    (Start gMissed [0, 1, 2, 3] (fun _ => none) true).2.1 = [0, 2] ∧
    (Stop gMissed [0, 1, 2, 3] (fun _ => none) true).1 = none ∧
    (Stop gMissed [0, 1, 2, 3] (fun _ => none) true).2.1 = [0, 2] := by
  exact ⟨by decide, by decide, by decide, by decide, by decide, by decide⟩

/-- C4 (amended): whenever the depth-first enumeration for some eligible
object actually emits a path touching two or more eligible objects, both
Start and Stop return that run's cycle error and invoke nothing; cycles
pruned by the shared visited set may however go undiscovered (see the
counterexample). -/
theorem discovered_multi_eligible_cycle_fatal (G : Graph) (objs : List Nat)
    (sB pB : Nat → Option String) (hasLog : Bool) (o : Nat)
    (ho : o ∈ objs) (hel : isEligible G o = true)
    (hdisc : ∃ p ∈ pathsOf G o, 1 < p.countP (fun s => isEligible G s.obj)) :
    ∃ p, levels G objs = .error p ∧
      Start G objs sB hasLog = (some (.cycle p), [], []) ∧
      Stop G objs pB hasLog = (some (.cycle p), [], []) := by
  obtain ⟨p0, hp0, hcnt⟩ := hdisc
  have hfat : firstFatal G (pathsOf G o) ≠ none := by
    intro hn
    have := ((firstFatal_eq_none_iff G _).mp hn _ hp0).2
    omega
  obtain ⟨p, hp⟩ := levels_error_of_fatal G objs o ho hel hfat
  exact ⟨p, hp, by simp [Start, hp], by simp [Stop, hp]⟩

theorem discovered_multi_eligible_cycle_fatal_witness :
    (0 : Nat) ∈ [0, 1] ∧ isEligible gPair 0 = true ∧
    (∃ p ∈ pathsOf gPair 0, 1 < p.countP (fun s => isEligible gPair s.obj)) ∧
    ∃ p, levels gPair [0, 1] = .error p ∧
      Start gPair [0, 1] (fun _ => none) true = (some (.cycle p), [], []) ∧
      Stop gPair [0, 1] (fun _ => none) true = (some (.cycle p), [], []) :=
  ⟨by decide, by decide, by decide,
    discovered_multi_eligible_cycle_fatal gPair [0, 1] (fun _ => none) (fun _ => none)
      true 0 (by decide) (by decide) (by decide)⟩

/-! ## Claim C5 -/

theorem edge_gBenignPair {a b : Nat} (h : Edge gBenignPair a b) :
    (a = 0 ∧ b = 1) ∨ (a = 1 ∧ b = 0) := by
  have ha : a < 3 := edge_src_lt gBenignPair h
  interval_cases a
  · obtain ⟨fv, hfv, he⟩ := h
    have : fv = ("x", 1) := List.mem_singleton.mp hfv
    rw [this] at he
    exact Or.inl ⟨rfl, he.symm⟩
  · obtain ⟨fv, hfv, he⟩ := h
    have : fv = ("A", 0) := List.mem_singleton.mp hfv
    rw [this] at he
    exact Or.inr ⟨rfl, he.symm⟩
  · obtain ⟨fv, hfv, _⟩ := h
    have h2 : gBenignPair.fields 2 = [] := rfl
    rw [h2] at hfv
    exact absurd hfv (List.not_mem_nil _)

/-- C5 counterexample: in `gBenignPair`, object `0` (on a benign cycle) and
object `2` (isolated) land in the same bucket, yet the count prescribed by
the claim — eligible nodes in the node's reachability set — is 1 for `0`
(it reaches itself) and 0 for `2`.  The code's count excludes the node
itself. -/
theorem levels_count_includes_self_cx :
    levels gBenignPair [0, 1, 2] = .ok [[0, 2]] ∧
    specCountLit gBenignPair 0 = 1 ∧ specCountLit gBenignPair 2 = 0 ∧
    specCountLit gBenignPair 0 ≠ specCountLit gBenignPair 2 := by
  have htgt : ∀ a b, Relation.TransGen (Edge gBenignPair) a b → b = 0 ∨ b = 1 := by
    intro a b h
    induction h with
    | single h1 => rcases edge_gBenignPair h1 with ⟨_, h2⟩ | ⟨_, h2⟩ <;> simp [h2]
    | tail _ h2 _ => rcases edge_gBenignPair h2 with ⟨_, h3⟩ | ⟨_, h3⟩ <;> simp [h3]
  have hsrc : ∀ a b, Relation.TransGen (Edge gBenignPair) a b → a = 0 ∨ a = 1 := by
    intro a b h
    induction h with
    | single h1 => rcases edge_gBenignPair h1 with ⟨h2, _⟩ | ⟨h2, _⟩ <;> simp [h2]
    | tail _ _ ih => exact ih
  have h00 : Relation.TransGen (Edge gBenignPair) 0 0 :=
    Relation.TransGen.head ⟨("x", 1), by decide, rfl⟩
      (Relation.TransGen.single ⟨("A", 0), by decide, rfl⟩)
  have hset0 : {v | Relation.TransGen (Edge gBenignPair) 0 v ∧
      isEligible gBenignPair v} = {0} := by
    ext v
    simp only [Set.mem_setOf_eq, Set.mem_singleton_iff]
    constructor
    · intro ⟨h1, h2⟩
      rcases htgt 0 v h1 with rfl | rfl
      · rfl
      · exact absurd h2 (by decide)
    · intro hv
      rw [hv]
      exact ⟨h00, by decide⟩
  have hset2 : {v | Relation.TransGen (Edge gBenignPair) 2 v ∧
      isEligible gBenignPair v} = ∅ := by
    ext v
    simp only [Set.mem_setOf_eq, Set.mem_empty_iff_false, iff_false]
    intro ⟨h1, _⟩
    rcases hsrc 2 v h1 with h2 | h2 <;> exact absurd h2 (by decide)
  refine ⟨rfl, ?_, ?_, ?_⟩
  · unfold specCountLit
    rw [hset0]
    exact Set.ncard_singleton 0
  · unfold specCountLit
    rw [hset2]
    exact Set.ncard_empty _
  · unfold specCountLit
    rw [hset0, hset2, Set.ncard_singleton, Set.ncard_empty]
    decide

/-- C5 (amended): on a well-formed graph a successful `levels` run buckets
the eligible objects by their count of eligible nodes *other than
themselves* in their reachability set: buckets are count-homogeneous,
ordered by strictly descending count, exhaustive over the eligible objects,
and empty input yields an empty bucket sequence. -/
theorem levels_buckets_by_reach_count (G : Graph) (objs : List Nat)
    (ls : List (List Nat)) (hWF : G.WF) (h : levels G objs = .ok ls) :
    (∀ b ∈ ls, ∀ a ∈ b, ∀ a' ∈ b, specCountEx G a = specCountEx G a') ∧
    ls.Pairwise (fun b₁ b₂ => ∀ a ∈ b₁, ∀ a' ∈ b₂, specCountEx G a' < specCountEx G a) ∧
    List.Perm ls.flatten (objs.filter (fun o => isEligible G o)) ∧
    (objs = [] → ls = []) := by
  obtain ⟨m, _, ⟨hnd, hlook, hcomp⟩, hls⟩ := levels_ok_structure G objs ls h
  have hmemBucket : ∀ x k, x ∈ lookupLevel m k →
      isEligible G x = true ∧ codeCount G x = k := by
    intro x k hx
    rw [hlook k] at hx
    have := (List.mem_filter.mp hx).2
    simp only [bucketPred, Bool.and_eq_true, beq_iff_eq] at this
    exact this
  refine ⟨?_, ?_, levels_join_perm G objs ls h, ?_⟩
  · intro b hb a ha a' ha'
    rw [hls] at hb
    obtain ⟨k, _, rfl⟩ := List.mem_map.mp hb
    have h1 := (hmemBucket a k ha).2
    have h2 := (hmemBucket a' k ha').2
    rw [← codeCount_eq_specCountEx G hWF a, ← codeCount_eq_specCountEx G hWF a', h1, h2]
  · rw [hls]
    refine List.pairwise_map.mpr ?_
    refine (sortDesc_strict hnd).imp ?_
    intro k k' hkk a ha a' ha'
    have h1 := (hmemBucket a k ha).2
    have h2 := (hmemBucket a' k' ha').2
    rw [← codeCount_eq_specCountEx G hWF a, ← codeCount_eq_specCountEx G hWF a', h1, h2]
    exact hkk
  · intro h0
    subst h0
    have h1 : levels G ([] : List Nat) = .ok ([] : List (List Nat)) := rfl
    rw [h1] at h
    exact (Except.ok.inj h).symm

theorem levels_buckets_by_reach_count_witness :
    gLine.WFb = true ∧ levels gLine [0, 1] = .ok [[0], [1]] ∧
    ((∀ b ∈ [[0], [1]], ∀ a ∈ b, ∀ a' ∈ b, specCountEx gLine a = specCountEx gLine a') ∧
      ([[0], [1]] : List (List Nat)).Pairwise
        (fun b₁ b₂ => ∀ a ∈ b₁, ∀ a' ∈ b₂, specCountEx gLine a' < specCountEx gLine a) ∧
      List.Perm ([[0], [1]] : List (List Nat)).flatten
        ([0, 1].filter (fun o => isEligible gLine o)) ∧
      (([0, 1] : List Nat) = [] → ([[0], [1]] : List (List Nat)) = [])) :=
  ⟨by decide, rfl,
    levels_buckets_by_reach_count gLine [0, 1] [[0], [1]]
      (WF_of_WFb gLine (by decide)) rfl⟩

/-! ## Claim C1 -/

/-- C1: on a well-formed acyclic graph with distinct objects and succeeding
start behaviors, Start then Stop succeed, invoke each startable
(resp. stoppable) object's behavior exactly once (the invocation lists are
permutations of the respective object sublists), and whenever `A`
transitively depends on `B`, `B` is started strictly before `A` and stopped
strictly after `A`. -/
theorem acyclic_start_stop_correct (G : Graph) (objs : List Nat)
    (sB pB : Nat → Option String) (hasLog : Bool)
    (hWF : G.WF) (hnd : objs.Nodup)
    (hacyc : ∀ v, ¬ Relation.TransGen (Edge G) v v)
    (hok : ∀ o, sB o = none) :
    (Start G objs sB hasLog).1 = none ∧
    (Stop G objs pB hasLog).1 = none ∧
    List.Perm (Start G objs sB hasLog).2.1
      (objs.filter (fun o => (G.value o).startable)) ∧
    List.Perm (Stop G objs pB hasLog).2.1
      (objs.filter (fun o => (G.value o).stoppable)) ∧
    (∀ A ∈ objs, ∀ B ∈ objs, (G.value A).startable = true →
      (G.value B).startable = true → Relation.TransGen (Edge G) A B →
      (Start G objs sB hasLog).2.1.indexOf B <
        (Start G objs sB hasLog).2.1.indexOf A) ∧
    (∀ A ∈ objs, ∀ B ∈ objs, (G.value A).stoppable = true →
      (G.value B).stoppable = true → Relation.TransGen (Edge G) A B →
      (Stop G objs pB hasLog).2.1.indexOf A <
        (Stop G objs pB hasLog).2.1.indexOf B) := by
  obtain ⟨ls, hls⟩ := levels_ok_of_acyclic G objs hacyc
  have hstart_eq : Start G objs sB hasLog =
      startLoop G sB hasLog ls.reverse.flatten := by
    simp [Start, hls]
  have hSL := startLoop_ok G sB hasLog ls.reverse.flatten (fun o _ _ => hok o)
  have hres : (Start G objs sB hasLog).1 = none := by
    rw [hstart_eq]; exact hSL.1
  have hcalls : (Start G objs sB hasLog).2.1 =
      (ls.reverse.flatten).filter (fun o => (G.value o).startable) := by
    rw [hstart_eq]; exact hSL.2
  have hstopres : (Stop G objs pB hasLog).1 = none := by
    simp [Stop, hls]
  have hstopcalls : (Stop G objs pB hasLog).2.1 =
      (ls.flatten).filter (fun o => (G.value o).stoppable) := by
    simp only [Stop, hls]
    exact stopLoop_calls G pB hasLog ls.flatten
  have hjoin := levels_join_perm G objs ls hls
  have hrevperm : List.Perm ls.reverse.flatten ls.flatten :=
    (List.reverse_perm ls).flatten
  have hstfil : (objs.filter (fun o => isEligible G o)).filter
      (fun o => (G.value o).startable) =
      objs.filter (fun o => (G.value o).startable) := by
    rw [List.filter_filter]
    refine List.filter_congr ?_
    intro o _
    cases hstb : (G.value o).startable
    · simp
    · simp [isEligible, hstb]
  have hspfil : (objs.filter (fun o => isEligible G o)).filter
      (fun o => (G.value o).stoppable) =
      objs.filter (fun o => (G.value o).stoppable) := by
    rw [List.filter_filter]
    refine List.filter_congr ?_
    intro o _
    cases hstb : (G.value o).stoppable
    · simp
    · simp [isEligible, hstb]
  refine ⟨hres, hstopres, ?_, ?_, ?_, ?_⟩
  · rw [hcalls, ← hstfil]
    exact (hrevperm.trans hjoin).filter _
  · rw [hstopcalls, ← hspfil]
    exact hjoin.filter _
  · intro A hA B hB hAst hBst hTG
    have hAe : isEligible G A = true := by simp [isEligible, hAst]
    have hBe : isEligible G B = true := by simp [isEligible, hBst]
    have hlt := codeCount_lt_of_reach G hWF hacyc hTG hBe
    obtain ⟨l₁, l₂, hsplit, hBl1, hAl1, _⟩ :=
      levels_before_start G objs ls hls hA hB hAe hBe hlt
    rw [hcalls, hsplit, List.filter_append]
    apply indexOf_append_lt
    · exact List.mem_filter.mpr ⟨hBl1, hBst⟩
    · intro hcon
      exact hAl1 (List.mem_filter.mp hcon).1
  · intro A hA B hB hAsp hBsp hTG
    have hAe : isEligible G A = true := by simp [isEligible, hAsp]
    have hBe : isEligible G B = true := by simp [isEligible, hBsp]
    have hlt := codeCount_lt_of_reach G hWF hacyc hTG hBe
    obtain ⟨l₁, l₂, hsplit, hAl1, hBl1, _⟩ :=
      levels_before_stop G objs ls hls hA hB hAe hBe hlt
    rw [hstopcalls, hsplit, List.filter_append]
    apply indexOf_append_lt
    · exact List.mem_filter.mpr ⟨hAl1, hAsp⟩
    · intro hcon
      exact hBl1 (List.mem_filter.mp hcon).1

theorem acyclic_start_stop_correct_witness :
    gLine.WFb = true ∧ ([0, 1] : List Nat).Nodup ∧
    (∀ v, ¬ Relation.TransGen (Edge gLine) v v) ∧
    ((Start gLine [0, 1] (fun _ => none) true).1 = none ∧
      (Stop gLine [0, 1] (fun _ => none) true).1 = none ∧
      List.Perm (Start gLine [0, 1] (fun _ => none) true).2.1
        ([0, 1].filter (fun o => (gLine.value o).startable)) ∧
      List.Perm (Stop gLine [0, 1] (fun _ => none) true).2.1
        ([0, 1].filter (fun o => (gLine.value o).stoppable)) ∧
      (∀ A ∈ [0, 1], ∀ B ∈ [0, 1], (gLine.value A).startable = true →
        (gLine.value B).startable = true → Relation.TransGen (Edge gLine) A B →
        (Start gLine [0, 1] (fun _ => none) true).2.1.indexOf B <
          (Start gLine [0, 1] (fun _ => none) true).2.1.indexOf A) ∧
      (∀ A ∈ [0, 1], ∀ B ∈ [0, 1], (gLine.value A).stoppable = true →
        (gLine.value B).stoppable = true → Relation.TransGen (Edge gLine) A B →
        (Stop gLine [0, 1] (fun _ => none) true).2.1.indexOf A <
          (Stop gLine [0, 1] (fun _ => none) true).2.1.indexOf B)) :=
  ⟨by decide, by decide, acyclic_gLine,
    acyclic_start_stop_correct gLine [0, 1] (fun _ => none) (fun _ => none) true
      (WF_of_WFb gLine (by decide)) (by decide) acyclic_gLine (fun _ => rfl)⟩

/-! ## Claim C6 -/

/-- C6: Start walks the buckets from last to first, invoking exactly the
objects exposing the startable capability; the invoked objects are the
successful prefix plus the first failing object (if any), whose failure
value is returned immediately, and nothing after it is started. -/
theorem start_fail_fast (G : Graph) (objs : List Nat) (sB : Nat → Option String)
    (hasLog : Bool) (ls : List (List Nat)) (h : levels G objs = .ok ls) :
    (Start G objs sB hasLog).1 =
      ((((ls.reverse.flatten).filter (fun o => (G.value o).startable)).drop
          (((ls.reverse.flatten).filter (fun o => (G.value o).startable)).takeWhile
            (fun o => (sB o).isNone)).length).head?).bind
        (fun o => (sB o).map SSError.start) ∧
    (Start G objs sB hasLog).2.1 =
      ((ls.reverse.flatten).filter (fun o => (G.value o).startable)).takeWhile
        (fun o => (sB o).isNone) ++
      (((ls.reverse.flatten).filter (fun o => (G.value o).startable)).drop
        (((ls.reverse.flatten).filter (fun o => (G.value o).startable)).takeWhile
          (fun o => (sB o).isNone)).length).take 1 := by
  have hstart_eq : Start G objs sB hasLog =
      startLoop G sB hasLog ls.reverse.flatten := by
    simp [Start, h]
  rw [hstart_eq, startLoop_filter]
  exact startLoop_closed_form G sB hasLog _
    (fun o ho => (List.mem_filter.mp ho).2)

theorem start_fail_fast_witness :
    levels gLine [0, 1] = .ok [[0], [1]] ∧
    ((Start gLine [0, 1] (fun o => if o = 1 then some "boom" else none) true).1 =
      (((([[0], [1]] : List (List Nat)).reverse.flatten.filter
            (fun o => (gLine.value o).startable)).drop
          ((([[0], [1]] : List (List Nat)).reverse.flatten.filter
              (fun o => (gLine.value o).startable)).takeWhile
            (fun o => ((if o = 1 then some "boom" else none) : Option String).isNone)).length).head?).bind
        (fun o => (((if o = 1 then some "boom" else none) : Option String)).map SSError.start) ∧
    (Start gLine [0, 1] (fun o => if o = 1 then some "boom" else none) true).2.1 =
      (([[0], [1]] : List (List Nat)).reverse.flatten.filter
          (fun o => (gLine.value o).startable)).takeWhile
        (fun o => ((if o = 1 then some "boom" else none) : Option String).isNone) ++
      ((([[0], [1]] : List (List Nat)).reverse.flatten.filter
          (fun o => (gLine.value o).startable)).drop
        ((([[0], [1]] : List (List Nat)).reverse.flatten.filter
            (fun o => (gLine.value o).startable)).takeWhile
          (fun o => ((if o = 1 then some "boom" else none) : Option String).isNone)).length).take 1) :=
  ⟨rfl, start_fail_fast gLine [0, 1] (fun o => if o = 1 then some "boom" else none)
    true [[0], [1]] rfl⟩

/-! ## Claim C7 -/

/-- C7: Stop walks the buckets from first to last, attempts every stoppable
object exactly once regardless of stop failures, never surfaces node-level
stop failures (it returns success whenever levels succeeded), and with a
logger present emits exactly one error event per failing stop. -/
theorem stop_best_effort (G : Graph) (objs : List Nat) (pB : Nat → Option String)
    (hasLog : Bool) (ls : List (List Nat)) (h : levels G objs = .ok ls) :
    (Stop G objs pB hasLog).1 = none ∧
    (Stop G objs pB hasLog).2.1 =
      (ls.flatten).filter (fun o => (G.value o).stoppable) ∧
    (Stop G objs pB true).2.2.filter isErrorEv =
      ((ls.flatten).filter (fun o => (G.value o).stoppable && (pB o).isSome)).map
        (fun o => LogEvent.errorEv
          ("error stopping " ++ (G.value o).display ++ ": " ++ (pB o).getD "")) := by
  refine ⟨by simp [Stop, h], ?_, ?_⟩
  · simp only [Stop, h]
    exact stopLoop_calls G pB hasLog ls.flatten
  · simp only [Stop, h]
    exact stopLoop_error_logs G pB ls.flatten

theorem stop_best_effort_witness :
    levels gLine [0, 1] = .ok [[0], [1]] ∧
    ((Stop gLine [0, 1] (fun o => if o = 0 then some "ouch" else none) true).1 = none ∧
    (Stop gLine [0, 1] (fun o => if o = 0 then some "ouch" else none) true).2.1 =
      (([[0], [1]] : List (List Nat)).flatten).filter
        (fun o => (gLine.value o).stoppable) ∧
    (Stop gLine [0, 1] (fun o => if o = 0 then some "ouch" else none) true).2.2.filter
        isErrorEv =
      ((([[0], [1]] : List (List Nat)).flatten).filter
          (fun o => (gLine.value o).stoppable &&
            ((if o = 0 then some "ouch" else none) : Option String).isSome)).map
        (fun o => LogEvent.errorEv
          ("error stopping " ++ (gLine.value o).display ++ ": " ++
            ((if o = 0 then some "ouch" else none) : Option String).getD ""))) :=
  ⟨rfl, stop_best_effort gLine [0, 1] (fun o => if o = 0 then some "ouch" else none)
    true [[0], [1]] rfl⟩

/-! ## Claim C8 -/

theorem str_foldl_init : ∀ (l : List String) (a : String),
    l.foldl (fun r s => r ++ s) a = a ++ l.foldl (fun r s => r ++ s) "" := by
  intro l
  induction l with
  | nil => intro a; simp [String.append_empty]
  | cons x xs ih =>
    intro a
    simp only [List.foldl_cons]
    rw [ih (a ++ x), ih ("" ++ x), String.empty_append, String.append_assoc]

theorem str_join_append (l1 l2 : List String) :
    String.join (l1 ++ l2) = String.join l1 ++ String.join l2 := by
  simp only [String.join, List.foldl_append]
  rw [str_foldl_init l2 _]

theorem str_join_singleton (x : String) : String.join [x] = x := by
  simp [String.join]

/-- C8: the textual rendering of a cycle error is the single self-loop line
for a one-step path, and for a longer path the header line followed by one
line per step and a final repeated line for the first step. -/
theorem cycleError_rendering (G : Graph) :
    (∀ s : Step, cycleErrorString G [s] =
      "circular reference detected from field " ++ s.fieldName ++ " in " ++
        (G.value s.obj).display ++ " to itself") ∧
    (∀ c : Path, 2 ≤ c.length → cycleErrorString G c =
      "circular reference detected from" ++
        String.join ((c ++ [c.headD default]).map (fun st =>
          "\n" ++ "field " ++ st.fieldName ++ " in " ++ (G.value st.obj).display))) := by
  constructor
  · intro s
    show "circular reference detected from" ++
      String.join [(if (1 : Nat) ≠ 1 then "\n" else " ") ++ "field " ++ s.fieldName ++
        " in " ++ (G.value s.obj).display] ++ " to itself" = _
    rw [if_neg (by omega), str_join_singleton]
    simp only [← String.append_assoc]
    rfl
  · intro c hc
    have hne : c.length ≠ 1 := by omega
    show "circular reference detected from" ++
      String.join (c.map (fun s =>
        (if c.length ≠ 1 then "\n" else " ") ++ "field " ++ s.fieldName ++ " in " ++
          (G.value s.obj).display)) ++
      (if c.length = 1 then " to itself"
        else "\n" ++ "field " ++ (c.headD default).fieldName ++ " in " ++
          (G.value (c.headD default).obj).display) = _
    rw [if_pos hne, if_neg hne, List.map_append, str_join_append, List.map_singleton,
      str_join_singleton, String.append_assoc]

theorem cycleError_rendering_witness :
    2 ≤ ([⟨"f1", 0⟩, ⟨"f0", 1⟩] : Path).length ∧
    cycleErrorString gPair [⟨"f1", 0⟩, ⟨"f0", 1⟩] =
      "circular reference detected from" ++
        String.join ((([⟨"f1", 0⟩, ⟨"f0", 1⟩] : Path) ++
            [([⟨"f1", 0⟩, ⟨"f0", 1⟩] : Path).headD default]).map (fun st =>
          "\n" ++ "field " ++ st.fieldName ++ " in " ++ (gPair.value st.obj).display)) :=
  ⟨by decide, (cycleError_rendering gPair).2 [⟨"f1", 0⟩, ⟨"f0", 1⟩] (by decide)⟩

/-! ## Claim C9 -/

/-- C9: the presence or absence of a logger never changes the returned
result or the sequence of invoked start/stop behaviors. -/
theorem logger_never_changes_control_flow (G : Graph) (objs : List Nat)
    (sB pB : Nat → Option String) (h₁ h₂ : Bool) :
    (Start G objs sB h₁).1 = (Start G objs sB h₂).1 ∧
    (Start G objs sB h₁).2.1 = (Start G objs sB h₂).2.1 ∧
    (Stop G objs pB h₁).1 = (Stop G objs pB h₂).1 ∧
    (Stop G objs pB h₁).2.1 = (Stop G objs pB h₂).2.1 := by
  cases hls : levels G objs with
  | error p =>
    simp [Start, Stop, hls]
  | ok ls =>
    obtain ⟨hs1, hs2⟩ := startLoop_log_indep G sB ls.reverse.flatten h₁ h₂
    refine ⟨?_, ?_, ?_, ?_⟩
    · simpa [Start, hls] using hs1
    · simpa [Start, hls] using hs2
    · simp [Stop, hls]
    · simp only [Stop, hls]
      rw [stopLoop_calls, stopLoop_calls]

/-! ## Claim C10 -/

/-- C10: an eligible object occurring `k ≥ 2` times in the input is placed
into its bucket `k` times, and Start (when starts succeed) and Stop invoke
its behavior `k` times — occurrences are not deduplicated. -/
theorem duplicate_objects_invoked_k_times (G : Graph) (objs : List Nat)
    (o : Nat) (ls : List (List Nat)) (sB pB : Nat → Option String)
    (hasLog : Bool) (hel : isEligible G o = true) (hk : 2 ≤ objs.count o)
    (h : levels G objs = .ok ls) (hok : ∀ x, sB x = none) :
    (∃ b ∈ ls, b.count o = objs.count o) ∧
    ls.flatten.count o = objs.count o ∧
    ((G.value o).startable = true →
      (Start G objs sB hasLog).2.1.count o = objs.count o) ∧
    ((G.value o).stoppable = true →
      (Stop G objs pB hasLog).2.1.count o = objs.count o) := by
  obtain ⟨m, _, ⟨hnd, hlook, hcomp⟩, hls⟩ := levels_ok_structure G objs ls h
  have hmem : o ∈ objs := by
    by_contra hcon
    rw [List.count_eq_zero.mpr hcon] at hk
    omega
  have hbcount : (lookupLevel m (codeCount G o)).count o = objs.count o := by
    rw [hlook _]
    exact List.count_filter (by simp [bucketPred, hel])
  have hjoin := levels_join_perm G objs ls h
  have hflatcnt : ls.flatten.count o = objs.count o := by
    rw [hjoin.count_eq, List.count_filter hel]
  refine ⟨?_, hflatcnt, ?_, ?_⟩
  · refine ⟨lookupLevel m (codeCount G o), ?_, hbcount⟩
    rw [hls]
    refine List.mem_map.mpr ⟨codeCount G o, ?_, rfl⟩
    exact (sortDesc_perm _).mem_iff.mpr (hcomp o hmem hel)
  · intro hst
    have hstart_eq : Start G objs sB hasLog =
        startLoop G sB hasLog ls.reverse.flatten := by
      simp [Start, h]
    have hcf : (ls.reverse.flatten.filter (fun x => (G.value x).startable)).count o =
        ls.reverse.flatten.count o := List.count_filter hst
    rw [hstart_eq, (startLoop_ok G sB hasLog ls.reverse.flatten
      (fun x _ _ => hok x)).2, hcf,
      ((List.reverse_perm ls).flatten).count_eq, hflatcnt]
  · intro hsp
    have hstop_eq : (Stop G objs pB hasLog).2.1 =
        (ls.flatten).filter (fun x => (G.value x).stoppable) := by
      simp only [Stop, h]
      exact stopLoop_calls G pB hasLog ls.flatten
    have hcf : ((ls.flatten).filter (fun x => (G.value x).stoppable)).count o =
        ls.flatten.count o := List.count_filter hsp
    rw [hstop_eq, hcf, hflatcnt]

/-- A single eligible object with no edges. -/
def gSolo : Graph := { vals := [⟨true, true, "A"⟩], flds := [[]] }

theorem duplicate_objects_invoked_k_times_witness :
    isEligible gSolo 0 = true ∧ 2 ≤ ([0, 0] : List Nat).count 0 ∧
    levels gSolo [0, 0] = .ok [[0, 0]] ∧
    ((∃ b ∈ [[0, 0]], b.count 0 = ([0, 0] : List Nat).count 0) ∧
      ([[0, 0]] : List (List Nat)).flatten.count 0 = ([0, 0] : List Nat).count 0 ∧
      ((gSolo.value 0).startable = true →
        (Start gSolo [0, 0] (fun _ => none) true).2.1.count 0 =
          ([0, 0] : List Nat).count 0) ∧
      ((gSolo.value 0).stoppable = true →
        (Stop gSolo [0, 0] (fun _ => none) true).2.1.count 0 =
          ([0, 0] : List Nat).count 0)) :=
  ⟨by decide, by decide, rfl,
    duplicate_objects_invoked_k_times gSolo [0, 0] 0 [[0, 0]] (fun _ => none)
      (fun _ => none) true (by decide) (by decide) rfl (fun _ => rfl)⟩

end Startstop
